import Mathlib

/-!
Shallow embedding of `src/app.py` (tree-viz-linkml).

Python dictionaries are modeled as association lists (`Dict`) with
insertion-ordered entries and (by construction) no duplicate keys;
Python sets are modeled as duplicate-free `List String` in insertion
order (`sadd`); `defaultdict` access that inserts a fresh empty entry on
a missing key is modeled by `PyDict.index`, where the `isDefault` flag
distinguishes `defaultdict(set)` from a plain `dict` (whose indexing
raises `KeyError`).  Exceptions are modeled by `Except String`;
unbounded recursion/looping is modeled with an explicit fuel parameter,
where exhausted fuel (`none`) represents a non-terminating run.
-/

/-! ### Python dict / set primitives -/

abbrev Dict := List (String × List String)

/-- `d.get(k)` on a string-keyed dict: value of the first entry with key `k`. -/
def dget (d : Dict) (k : String) : Option (List String) :=
  match d with
  | [] => none
  | (k', v) :: rest => if k' = k then some v else dget rest k

/-- `d.get(k, [])`. -/
def dgetD (d : Dict) (k : String) : List String :=
  (dget d k).getD []

/-- `d[k] = v`: replace in place when the key exists, append otherwise
(Python dicts keep the original position of an overwritten key). -/
def dset (d : Dict) (k : String) (v : List String) : Dict :=
  match d with
  | [] => [(k, v)]
  | (k', v') :: rest => if k' = k then (k, v) :: rest else (k', v') :: dset rest k v

/-- `del d[k]` for a present key: drop the first entry with key `k`. -/
def ddel (d : Dict) (k : String) : Dict :=
  match d with
  | [] => []
  | (k', v') :: rest => if k' = k then rest else (k', v') :: ddel rest k

/-- Python `set.add`: append when not already a member. -/
def sadd (s : List String) (x : String) : List String :=
  if x ∈ s then s else s ++ [x]

/-- Python `s.union(t)`: a fresh set holding the members of both. -/
def sunion (s t : List String) : List String :=
  t.foldl sadd s

/-- Python `s.remove(x)`: `none` models the `KeyError` on a missing member. -/
def sremove (s : List String) (x : String) : Option (List String) :=
  if x ∈ s then some (s.filter (fun y => y ≠ x)) else none

/-- `defaultdict(set)`: `d[k].add(x)`, creating the entry when missing. -/
def dAddToSet (d : Dict) (k : String) (x : String) : Dict :=
  match dget d k with
  | some v => dset d k (sadd v x)
  | none => d ++ [(k, sadd [] x)]

/-- `defaultdict(list)`: `d[k].append(x)`, creating the entry when missing. -/
def dAppend (d : Dict) (k : String) (x : String) : Dict :=
  match dget d k with
  | some v => dset d k (v ++ [x])
  | none => d ++ [(k, [x])]

/-- A Python mapping from parent name to children set, together with the
flag telling whether it is a `defaultdict(set)` (then indexing a missing
key inserts and returns a fresh empty set) or a plain `dict` (then it
raises `KeyError`). -/
structure PyDict where
  entries : Dict
  isDefault : Bool
deriving Repr, DecidableEq

/-- `m[k]` with Python semantics: the value plus the possibly-extended dict,
or a `KeyError`. -/
def PyDict.index (m : PyDict) (k : String) : Except String (List String × PyDict) :=
  match dget m.entries k with
  | some v => .ok (v, m)
  | none =>
    if m.isDefault then .ok ([], ⟨m.entries ++ [(k, [])], m.isDefault⟩)
    else .error "KeyError"

/-! String-keyed association list with string values (a Python
`dict[str, str]`). -/

abbrev SDict := List (String × String)

def alookup (d : SDict) (k : String) : Option String :=
  match d with
  | [] => none
  | (k', v) :: rest => if k' = k then some v else alookup rest k

def aset (d : SDict) (k : String) (v : String) : SDict :=
  match d with
  | [] => [(k, v)]
  | (k', v') :: rest => if k' = k then (k, v) :: rest else (k', v') :: aset rest k v

/-! ### Name conversion (`convert_predicate_to_trapi_format`,
`convert_category_to_trapi_format`, src/app.py lines 14-21) -/

/-- `english_predicate.replace(' ', '_')`. -/
def convert_predicate_to_trapi_format (s : String) : String :=
  ⟨s.data.map (fun c => if c = ' ' then '_' else c)⟩

/-- Python `s.split(" ")` over the character list: split on every single
space, keeping empty words. -/
def pySplitChars : List Char → List (List Char)
  | [] => [[]]
  | c :: rest =>
    if c = ' ' then [] :: pySplitChars rest
    else
      match pySplitChars rest with
      | [] => [[c]]
      | w :: ws => (c :: w) :: ws

/-- `f"{word[0].upper()}{word[1:]}"`: `none` models the `IndexError` that
`word[0]` raises on an empty word. -/
def capitalizeWord : List Char → Option (List Char)
  | [] => none
  | c :: rest => some (c.toUpper :: rest)

def optMapList (f : α → Option β) : List α → Option (List β)
  | [] => some []
  | a :: as =>
    match f a, optMapList f as with
    | some b, some bs => some (b :: bs)
    | _, _ => none

/-- `"".join([f"{word[0].upper()}{word[1:]}" for word in s.split(" ")])`;
`none` models the `IndexError` on an empty word. -/
def convert_category_to_trapi_format (s : String) : Option String :=
  match optMapList capitalizeWord (pySplitChars s.data) with
  | some ws => some ⟨ws.flatten⟩
  | none => none

/-! ### The tree builder (`get_tree_node_recursive`, src/app.py lines 24-34) -/

inductive TreeNode where
  | mk (name : String) (parent : Option String) (children : List TreeNode)
deriving Repr

def TreeNode.name : TreeNode → String
  | .mk n _ _ => n

def TreeNode.parent : TreeNode → Option String
  | .mk _ p _ => p

def TreeNode.children : TreeNode → List TreeNode
  | .mk _ _ cs => cs

/-- Plain lexicographic (code-point) comparison of character sequences:
exactly Python's `<=` on strings. -/
def strLeB : List Char → List Char → Bool
  | [], _ => true
  | _ :: _, [] => false
  | a :: as, b :: bs =>
    if a < b then true
    else if b < a then false
    else strLeB as bs

/-- Plain lexicographic (code-point) strict comparison: Python's `<`. -/
def strLtB : List Char → List Char → Bool
  | [], [] => false
  | [], _ :: _ => true
  | _ :: _, [] => false
  | a :: as, b :: bs =>
    if a < b then true
    else if b < a then false
    else strLtB as bs

/-- Insert into a list sorted ascending by node name (stable). -/
def insertByName (n : TreeNode) : List TreeNode → List TreeNode
  | [] => [n]
  | m :: rest =>
    if strLeB n.name.data m.name.data then n :: m :: rest else m :: insertByName n rest

/-- `sorted(children, key=lambda x: x["name"])`: a stable sort by the
name's character sequence (code-point lexicographic, no locale).
Python's stable sort and this stable insertion sort agree on every list. -/
def sortByName (l : List TreeNode) : List TreeNode :=
  l.foldr insertByName []

/-- `get_tree_node_recursive(root_node, parent_to_child_map)`: materialize the
tree below `name`.  The fuel bounds the recursion depth; `none` models a
run that exceeds every bound (Python's unbounded recursion on cyclic input).
A node with no entry in the map gets the empty children list (Python leaves
the `"children"` key absent, which the output contract treats as empty). -/
def get_tree_node_recursive (m : Dict) : Nat → String → Option String → Option TreeNode
  | 0, _, _ => none
  | fuel + 1, name, parent =>
    match optMapList (fun c => get_tree_node_recursive m fuel c (some name)) (dgetD m name) with
    | some cs => some (.mk name parent (sortByName cs))
    | none => none

mutual
/-- All names in the tree, root first. -/
def treeNames : TreeNode → List String
  | .mk n _ cs => n :: treeNamesList cs

def treeNamesList : List TreeNode → List String
  | [] => []
  | t :: ts => treeNames t ++ treeNamesList ts
end

mutual
/-- Flatten a tree into its (name, parent back-reference) pairs. -/
def flattenPairs : TreeNode → List (String × Option String)
  | .mk n p cs => (n, p) :: flattenPairsList cs

def flattenPairsList : List TreeNode → List (String × Option String)
  | [] => []
  | t :: ts => flattenPairs t ++ flattenPairsList ts
end

/-! ### Schema input model (the parsed YAML document handed over by the
retrieval collaborator; `none` at the call sites models a retrieval or
parse failure, i.e. a non-200 response). -/

structure SchemaEntry where
  name : String
  is_a : Option String
deriving Repr, DecidableEq

/-- One permissible value of the aspect enum: `info` is `none` for a
value with no info dict, `some is_a?` otherwise. -/
structure AspectEntry where
  name : String
  info : Option (Option String)
deriving Repr, DecidableEq

structure LinkmlModel where
  classes : List SchemaEntry
  slots : List SchemaEntry
  enums : List (String × List AspectEntry)
  version : String
deriving Repr

def lookupEnum : List (String × List AspectEntry) → String → Option (List AspectEntry)
  | [], _ => none
  | (k, v) :: rest, k' => if k = k' then some v else lookupEnum rest k'

/-! ### Loaders (src/app.py lines 47-139) -/

/-- src/app.py lines 53-59. -/
def build_predicate_dict (slots : List SchemaEntry) : Dict :=
  slots.foldl (fun acc sc =>
    match sc.is_a with
    | some pE =>
      dAddToSet acc (convert_predicate_to_trapi_format pE) (convert_predicate_to_trapi_format sc.name)
    | none => acc) []

/-- `load_predicate_tree_data` (lines 47-66). -/
def load_predicate_tree_data (resp : Option LinkmlModel) (fuel : Nat) :
    Except String (List TreeNode × String) :=
  match resp with
  | none => .ok ([], "")
  | some model =>
    let d := build_predicate_dict model.slots
    match get_tree_node_recursive d fuel "related_to" none with
    | some t => .ok ([t], model.version)
    | none => .error "RecursionError"

/-- src/app.py lines 75-81 (category conversion may raise `IndexError`). -/
def build_category_dict : List SchemaEntry → Dict → Except String Dict
  | [], acc => .ok acc
  | sc :: rest, acc =>
    match convert_category_to_trapi_format sc.name with
    | none => .error "IndexError"
    | some sname =>
      match sc.is_a with
      | none => build_category_dict rest acc
      | some pE =>
        match convert_category_to_trapi_format pE with
        | none => .error "IndexError"
        | some pname => build_category_dict rest (dAddToSet acc pname sname)

/-- `load_category_tree_data` (lines 69-89), with
`return_parent_to_child_dict=True`.  On failure the returned mapping is a
plain `dict()` (not a `defaultdict`), hence `isDefault := false`. -/
def load_category_tree_data (resp : Option LinkmlModel) (fuel : Nat) :
    Except String (List TreeNode × String × PyDict) :=
  match resp with
  | none => .ok ([], "", ⟨[], false⟩)
  | some model =>
    match build_category_dict model.classes [] with
    | .error e => .error e
    | .ok d =>
      match get_tree_node_recursive d fuel "NamedThing" none with
      | some t => .ok ([t], model.version, ⟨d, true⟩)
      | none => .error "RecursionError"

/-- src/app.py lines 102-106. -/
def build_aspect_dict (pvs : List AspectEntry) : Dict :=
  pvs.foldl (fun acc e =>
    let parent :=
      match e.info with
      | none => "[root]"
      | some i => i.getD "[root]"
    dAddToSet acc parent e.name) []

/-- `load_aspect_tree_data` (lines 92-115).  On a pre-3.0.0 version the
"tree" is the bare `dict()`, modeled as `none` in the returned list. -/
def load_aspect_tree_data (resp : Option LinkmlModel) (fuel : Nat) :
    Except String (List (Option TreeNode) × String) :=
  match resp with
  | none => .ok ([], "")
  | some model =>
    let ver := model.version
    if "3.0.0" ≤ ver then
      let fieldName :=
        if ver.startsWith "3.0" then "gene_or_gene_product_or_chemical_entity_aspect_enum"
        else "GeneOrGeneProductOrChemicalEntityAspectEnum"
      match lookupEnum model.enums fieldName with
      | none => .error "KeyError"
      | some pvs =>
        let d := build_aspect_dict pvs
        match get_tree_node_recursive d fuel "[root]" none with
        | some t => .ok ([some t], ver)
        | none => .error "RecursionError"
    else
      .ok ([none], ver)

/-! ### TreeSurgeon (src/app.py lines 118-139 and 150-157) -/

/-- Lines 121-122 and 161-162: `{child: parent for parent, children in
map.items() for child in children}`; a later pair overwrites an earlier
one in place. -/
def build_child_to_parent (m : Dict) : SDict :=
  m.foldl (fun acc pc => pc.2.foldl (fun acc2 c => aset acc2 c pc.1) acc) []

def sub_branches_to_keep : List String :=
  ["BiologicalProcessOrActivity", "DiseaseOrPhenotypicFeature", "OrganismalEntity"]

/-- Lines 121-134: the map-revision part of `load_category_er_tree_data`.
Indexing `"BiologicalEntity"` raises `KeyError` on the plain `dict()` the
failure branch of `load_category_tree_data` returns. -/
def load_category_er_map (m0 : PyDict) : Except String PyDict :=
  let ctp := build_child_to_parent m0.entries
  match m0.index "BiologicalEntity" with
  | .error e => .error e
  | .ok (beSubs, _) =>
    let toMove := beSubs.filter (fun x => decide (x ∉ sub_branches_to_keep))
    let ctp2 := toMove.foldl (fun acc x => aset acc x "GeneticOrMolecularBiologicalEntity") ctp
    let revised := ctp2.foldl (fun acc cp => dAddToSet acc cp.2 cp.1) []
    .ok ⟨dAddToSet revised "BiologicalEntity" "GeneticOrMolecularBiologicalEntity", true⟩

/-- `load_category_er_tree_data` (lines 118-139). -/
def load_category_er_tree_data (resp : Option LinkmlModel) (fuel : Nat) :
    Except String (List TreeNode × String × PyDict) :=
  match load_category_tree_data resp fuel with
  | .error e => .error e
  | .ok (_, ver, m) =>
    match load_category_er_map m with
    | .error e => .error e
    | .ok m' =>
      match get_tree_node_recursive m'.entries fuel "NamedThing" none with
      | some t => .ok ([t], ver, m')
      | none => .error "RecursionError"

/-- Lines 152-157: move `BiologicalEntity`'s sub-branches up onto
`NamedThing`, drop `BiologicalEntity` from `NamedThing`'s children
(`set.remove` raises on a missing member) and delete its key. -/
def er_lift (m0 : PyDict) : Except String PyDict :=
  match m0.index "NamedThing" with
  | .error e => .error e
  | .ok (ntChildren, m1) =>
    match m1.index "BiologicalEntity" with
    | .error e => .error e
    | .ok (beChildren, m2) =>
      let m3 : PyDict := ⟨dset m2.entries "NamedThing" (sunion ntChildren beChildren), m2.isDefault⟩
      match sremove (dgetD m3.entries "NamedThing") "BiologicalEntity" with
      | none => .error "KeyError"
      | some s =>
        let m4 : PyDict := ⟨dset m3.entries "NamedThing" s, m3.isDefault⟩
        match dget m4.entries "BiologicalEntity" with
        | some _ => .ok ⟨ddel m4.entries "BiologicalEntity", m4.isDefault⟩
        | none => .error "KeyError"

/-- The complete subtree-relocation view: the er revision of the category
map followed by the lift performed inside `generate_major_branches_maps`. -/
def tree_surgeon (m0 : PyDict) : Except String PyDict :=
  match load_category_er_map m0 with
  | .error e => .error e
  | .ok m => er_lift m

/-! ### AncestorClassifier (src/app.py lines 158-185) -/

/-- Lines 170-172: `while ancestor and ancestor not in major_branches:
ancestor = child_to_parent_map.get(ancestor)`.  The outer `none` models a
loop that exceeds every fuel bound (Python loops forever there). -/
def whileWalk (ctp : SDict) (mb : List String) : Nat → Option String → Option (Option String)
  | 0, _ => none
  | _ + 1, none => some none
  | fuel + 1, some a =>
    if a ≠ "" ∧ a ∉ mb then whileWalk ctp mb fuel (alookup ctp a)
    else some (some a)

/-- Lines 163-173: one classification entry per `ctp` entry, in order
(Python iterates a dict, whose keys are distinct). -/
def classify_major_branches (ctp : SDict) (mb : List String) (fuel : Nat) :
    Option (List (String × Option String)) :=
  optMapList (fun cp =>
    if cp.1 ∈ mb then some (cp.1, some cp.1)
    else
      match whileWalk ctp mb fuel (some cp.2) with
      | some r => some (cp.1, r)
      | none => none) ctp

/-- Lines 176-178: keep the entries whose ancestor is truthy (neither
`None` nor the empty string). -/
def filter_truthy (l : List (String × Option String)) : SDict :=
  l.filterMap (fun cv =>
    match cv.2 with
    | some s => if s = "" then none else some (cv.1, s)
    | none => none)

/-- Lines 180-182: invert into the descendant lists (`defaultdict(list)`). -/
def group_descendants (l : SDict) : Dict :=
  l.foldl (fun acc cv => dAppend acc cv.2 cv.1) []

/-- Lines 150-185 of `generate_major_branches_maps`: everything after the
loader call.  `NonTermination` marks a classification walk that never
terminates (a cycle outside the major branches). -/
def generate_maps_core (m0 : PyDict) (for_er : Bool) (fuel : Nat) :
    Except String (SDict × Dict) :=
  match (if for_er then er_lift m0 else .ok m0) with
  | .error e => .error e
  | .ok m =>
    match m.index "NamedThing" with
    | .error e => .error e
    | .ok (mb, m') =>
      let ctp := build_child_to_parent m'.entries
      match classify_major_branches ctp mb fuel with
      | none => .error "NonTermination"
      | some cmb =>
        let filtered := filter_truthy cmb
        .ok (filtered, group_descendants filtered)

/-- `generate_major_branches_maps` (lines 142-185).  Line 147
(`named_thing_node = category_tree[0]`) raises `IndexError` when the
loader returned the empty tree list. -/
def generate_major_branches_maps (resp : Option LinkmlModel) (fuel : Nat) (for_er : Bool) :
    Except String (SDict × Dict) :=
  match (if for_er then load_category_er_tree_data resp fuel else load_category_tree_data resp fuel) with
  | .error e => .error e
  | .ok (tree, _, m) =>
    match tree with
    | [] => .error "IndexError"
    | _ :: _ => generate_maps_core m for_er fuel

/-! ### Specification-side notions used to state the claims -/

abbrev NodupKeys (d : List (String × α)) : Prop :=
  (d.map Prod.fst).Nodup

abbrev NodupVals (d : Dict) : Prop :=
  ∀ e ∈ d, (e.2 : List String).Nodup

/-- §3 HierarchyMap invariant: a child appears under at most one parent. -/
abbrev OneParent (d : Dict) : Prop :=
  ∀ e1 ∈ d, ∀ e2 ∈ d, ∀ x ∈ e1.2, x ∈ e2.2 → e1.1 = e2.1

/-- Transitive reachability along parent→children edges of the map. -/
inductive Reaches (m : Dict) : String → String → Prop
  | refl (a : String) : Reaches m a a
  | head {a b c : String} : b ∈ dgetD m a → Reaches m b c → Reaches m a c

/-- Reachability in exactly `n` steps. -/
inductive ReachesN (m : Dict) : Nat → String → String → Prop
  | zero (a : String) : ReachesN m 0 a a
  | head {n : Nat} {a b c : String} : b ∈ dgetD m a → ReachesN m n b c → ReachesN m (n + 1) a c

/-- `n`-fold child→parent step along an inverted lookup. -/
def chainIter (ctp : SDict) : Nat → String → Option String
  | 0, x => some x
  | n + 1, x =>
    match alookup ctp x with
    | some p => chainIter ctp n p
    | none => none

/-- The parent of `x` read off the parent→children map directly
(the key of the first entry whose children contain `x`). -/
def ctpFun (m : Dict) (x : String) : Option String :=
  match m with
  | [] => none
  | (k, v) :: rest => if x ∈ v then some k else ctpFun rest x

/-- `n`-fold iteration of `ctpFun`. -/
def upN (m : Dict) : Nat → String → Option String
  | 0, x => some x
  | n + 1, x =>
    match ctpFun m x with
    | some p => upN m n p
    | none => none

/-! ### Basic lemmas about the dict primitives -/


theorem dget_dset (d : Dict) (k k' : String) (v : List String) :
    dget (dset d k v) k' = if k = k' then some v else dget d k' := by
  induction d with
  | nil => simp [dset, dget]
  | cons e rest ih =>
    obtain ⟨ek, ev⟩ := e
    show dget (if ek = k then (k, v) :: rest else (ek, ev) :: dset rest k v) k'
        = if k = k' then some v else dget ((ek, ev) :: rest) k'
    by_cases hek : ek = k
    · subst hek
      rw [if_pos rfl]
      by_cases h2 : ek = k' <;> simp [dget, h2]
    · rw [if_neg hek]
      by_cases h1 : ek = k'
      · have h2 : ¬ k = k' := fun hh => hek (h1.trans hh.symm)
        simp [dget, h1, h2]
      · simp [dget, h1, ih]

theorem dget_append (d₁ d₂ : Dict) (k : String) :
    dget (d₁ ++ d₂) k =
      match dget d₁ k with
      | some v => some v
      | none => dget d₂ k := by
  induction d₁ with
  | nil => simp [dget]
  | cons e rest ih =>
    obtain ⟨ek, ev⟩ := e
    by_cases h : ek = k <;> simp [dget, h, ih]

theorem mem_dgetD_dAppend (d : Dict) (k x k' y : String) :
    y ∈ dgetD (dAppend d k x) k' ↔ (y ∈ dgetD d k' ∨ (k' = k ∧ y = x)) := by
  unfold dAppend
  cases hv : dget d k with
  | some v =>
    by_cases h : k = k'
    · subst h
      simp only [dgetD, dget_dset, if_pos rfl, hv]
      simp [List.mem_append]
    · have h' : k' ≠ k := fun hh => h hh.symm
      simp only [dgetD, dget_dset, if_neg h]
      simp [h']
  | none =>
    simp only [dgetD, dget_append]
    by_cases h : k = k'
    · subst h
      rw [hv]
      simp [dget, hv]
    · have h' : k' ≠ k := fun hh => h hh.symm
      cases hd : dget d k' with
      | some v => simp [hd, dget, h, h']
      | none => simp [hd, dget, h, h']

theorem alookup_mem {l : SDict} {k b : String} (h : alookup l k = some b) : (k, b) ∈ l := by
  induction l with
  | nil => simp [alookup] at h
  | cons e rest ih =>
    obtain ⟨ek, ev⟩ := e
    by_cases hek : ek = k
    · subst hek
      simp [alookup] at h
      simp [h]
    · simp [alookup, hek] at h
      exact List.mem_cons_of_mem _ (ih h)

theorem mem_dgetD_group_mono (l : SDict) (acc : Dict) (k' y : String)
    (h : y ∈ dgetD acc k') :
    y ∈ dgetD (l.foldl (fun a cv => dAppend a cv.2 cv.1) acc) k' := by
  induction l generalizing acc with
  | nil => simpa using h
  | cons e rest ih =>
    exact ih _ ((mem_dgetD_dAppend _ _ _ _ _).2 (Or.inl h))

theorem pair_mem_group_descendants {l : SDict} {k b : String} (h : (k, b) ∈ l) :
    k ∈ dgetD (group_descendants l) b := by
  unfold group_descendants
  obtain ⟨l₁, l₂, rfl⟩ := List.append_of_mem h
  rw [List.foldl_append, List.foldl_cons]
  exact mem_dgetD_group_mono _ _ _ _
    ((mem_dgetD_dAppend _ _ _ _ _).2 (Or.inr ⟨rfl, rfl⟩))

/-! ### Claims C1, C2, C3 -/

/-- C1: on a schema retrieval/parse failure (a non-200 response, modeled by
the `none` input), the predicate, category and aspect loaders do return
empty trees and maps without raising — but `load_category_er_tree_data`
raises `KeyError` (indexing `"BiologicalEntity"` on the plain empty
`dict()`) and `generate_major_branches_maps` raises `IndexError`
(`category_tree[0]` on the empty list) or propagates that `KeyError`,
contradicting the claim that every core operation surfaces the failure as
empty data and never as a fault. -/
theorem schema_failure_behaviour (fuel : Nat) :
    load_predicate_tree_data none fuel = .ok ([], "")
    ∧ load_category_tree_data none fuel = .ok ([], "", ⟨[], false⟩)
    ∧ load_aspect_tree_data none fuel = .ok ([], "")
    ∧ load_category_er_tree_data none fuel = .error "KeyError"
    ∧ generate_major_branches_maps none fuel false = .error "IndexError"
    ∧ generate_major_branches_maps none fuel true = .error "KeyError" :=
  ⟨rfl, rfl, rfl, rfl, rfl, rfl⟩

/-- C2: `get_tree_node_recursive` has no visited-path guard: on the cyclic
map `{"A": {"A"}}` rooted at `"A"` the recursion exceeds every fuel bound
(it never returns), instead of failing fast with a CycleDetected
condition as the specification demands. -/
theorem get_tree_node_recursive_diverges_on_cycle :
    ∀ (fuel : Nat) (p : Option String),
      get_tree_node_recursive [("A", ["A"])] fuel "A" p = none := by
  intro fuel
  induction fuel with
  | zero => intro p; rfl
  | succ f ih => intro p; simp [get_tree_node_recursive, dgetD, dget, optMapList, ih]

/-- C3 counterexample: on the map `{NamedThing: {A, B}, A: {C, D}}` (the
claim's edges `[(A, root), (B, root), (C, A), (D, A)]` with the hard-coded
root `NamedThing`, so MajorBranchSet is `{A, B}`), the classifier appends
every classified name — a major branch included — under its recorded
ancestor, so `A` has ancestor `A` yet appears in its own descendant list
(`A: [A, C, D]`, `B: [B]`), refuting `A: [C, D], B: []`. -/
theorem major_branch_in_own_descendants_cex :
    generate_maps_core ⟨[("NamedThing", ["A", "B"]), ("A", ["C", "D"])], true⟩ false 10
      = .ok ([("A", "A"), ("B", "B"), ("C", "A"), ("D", "A")],
             [("A", ["A", "C", "D"]), ("B", ["B"])])
    ∧ alookup [("A", "A"), ("B", "B"), ("C", "A"), ("D", "A")] "A" = some "A"
    ∧ "A" ∈ dgetD [("A", ["A", "C", "D"]), ("B", ["B"])] "A"
    ∧ dgetD [("A", ["A", "C", "D"]), ("B", ["B"])] "B" ≠ [] :=
  ⟨rfl, rfl, by decide, by decide⟩

/-- C3 amended: each major-branch name is INCLUDED in its own descendant
list: whenever `generate_major_branches_maps`'s core returns maps in which
a name `n` is recorded as its own ancestor, `n` appears in
`major_branch_to_descendants[n]` (the self-exclusion the claim states does
not happen; on the claim's concrete input the result is
`A: [A, C, D], B: [B]`). -/
theorem major_branch_in_own_descendants (m : PyDict) (er : Bool) (fuel : Nat)
    (cmb : SDict) (desc : Dict) (n : String)
    (hrun : generate_maps_core m er fuel = .ok (cmb, desc))
    (hself : alookup cmb n = some n) :
    n ∈ dgetD desc n := by
  have hdesc : desc = group_descendants cmb := by
    unfold generate_maps_core at hrun
    dsimp only at hrun
    split at hrun
    · exact absurd hrun (by simp)
    · split at hrun
      · exact absurd hrun (by simp)
      · split at hrun
        · exact absurd hrun (by simp)
        · simp at hrun
          rw [← hrun.1]
          exact hrun.2.symm
  rw [hdesc]
  exact pair_mem_group_descendants (alookup_mem hself)

/-- C3 witness: the amended theorem applied at the claim's concrete
scenario. -/
theorem major_branch_in_own_descendants_witness :
    "A" ∈ dgetD [("A", ["A", "C", "D"]), ("B", ["B"])] "A" :=
  major_branch_in_own_descendants
    ⟨[("NamedThing", ["A", "B"]), ("A", ["C", "D"])], true⟩ false 10
    [("A", "A"), ("B", "B"), ("C", "A"), ("D", "A")]
    [("A", ["A", "C", "D"]), ("B", ["B"])] "A" rfl rfl

/-! ### Claim C10: partiality of the category-style conversion -/

/-- Two consecutive spaces somewhere in the character list. -/
def hasDoubleSpace : List Char → Bool
  | c1 :: c2 :: rest => (c1 == ' ' && c2 == ' ') || hasDoubleSpace (c2 :: rest)
  | _ => false

theorem pySplitChars_ne_nil : ∀ cs : List Char, pySplitChars cs ≠ []
  | [] => by simp [pySplitChars]
  | c :: rest => by
    by_cases hc : c = ' '
    · simp [pySplitChars, hc]
    · simp only [pySplitChars, if_neg hc]
      cases hsp : pySplitChars rest <;> simp

theorem pySplitChars_cons_space (l : List Char) :
    pySplitChars (' ' :: l) = [] :: pySplitChars l := by
  simp [pySplitChars]

theorem pySplitChars_cons_nonspace {c : Char} (hc : ¬ c = ' ') (l : List Char) :
    ∃ w ws, pySplitChars l = w :: ws ∧ pySplitChars (c :: l) = (c :: w) :: ws := by
  cases hsp : pySplitChars l with
  | nil => exact absurd hsp (pySplitChars_ne_nil l)
  | cons w ws => exact ⟨w, ws, rfl, by simp [pySplitChars, hc, hsp]⟩

theorem emptyWord_mem_split_iff : ∀ cs : List Char,
    ([] ∈ pySplitChars cs ↔
      (cs = [] ∨ cs.head? = some ' ' ∨ cs.getLast? = some ' ' ∨ hasDoubleSpace cs = true))
  | [] => by simp [pySplitChars]
  | [c] => by
    by_cases hc : c = ' '
    · subst hc
      simp [pySplitChars, hasDoubleSpace]
    · simp only [pySplitChars, if_neg hc]
      simp [hasDoubleSpace, hc]
  | c1 :: c2 :: rest => by
    have IH := emptyWord_mem_split_iff (c2 :: rest)
    by_cases h1 : c1 = ' '
    · subst h1
      rw [pySplitChars_cons_space]
      simp
    · obtain ⟨w, ws, hsp, hsp2⟩ := pySplitChars_cons_nonspace h1 (c2 :: rest)
      rw [hsp2]
      have hDS : hasDoubleSpace (c1 :: c2 :: rest) = hasDoubleSpace (c2 :: rest) := by
        simp [hasDoubleSpace, h1]
      rw [hDS, List.getLast?_cons_cons]
      simp only [List.mem_cons, List.cons_ne_nil, false_or, List.head?_cons,
        Option.some_inj, reduceCtorEq, h1]
      rw [hsp] at IH
      simp only [List.mem_cons, List.cons_ne_nil, false_or, List.head?_cons,
        Option.some_inj] at IH
      by_cases hc2 : c2 = ' '
      · subst hc2
        rw [pySplitChars_cons_space] at hsp
        obtain ⟨hw, hws⟩ : w = [] ∧ ws = pySplitChars rest := by
          constructor <;> injection hsp <;> simp_all
        subst hw; subst hws
        have IHr := emptyWord_mem_split_iff rest
        cases rest with
        | nil => simp [pySplitChars, hasDoubleSpace]
        | cons r rest2 =>
          rw [List.getLast?_cons_cons]
          have hDS2 : hasDoubleSpace (' ' :: r :: rest2) = ((r == ' ') || hasDoubleSpace (r :: rest2)) := by
            simp [hasDoubleSpace]
          rw [hDS2]
          simp only [List.mem_cons, List.cons_ne_nil, false_or, List.head?_cons,
            Option.some_inj] at IHr
          rw [IHr]
          simp only [Bool.or_eq_true, beq_iff_eq]
          tauto
      · have hwne : ¬ w = [] := by
          obtain ⟨w', ws', hsp', hsp2'⟩ := pySplitChars_cons_nonspace hc2 rest
          rw [hsp2'] at hsp
          injection hsp with h h'
          rw [← h]
          simp
        constructor
        · intro hm
          rcases IH.1 (Or.inr hm) with h | h
          · exact absurd h hc2
          · exact h
        · intro hr
          rcases IH.2 (Or.inr hr) with h | h
          · exact absurd h.symm hwne
          · exact h

theorem optMapList_capitalize_none_iff (ws : List (List Char)) :
    optMapList capitalizeWord ws = none ↔ [] ∈ ws := by
  induction ws with
  | nil => simp [optMapList]
  | cons w ws ih =>
    cases w with
    | nil => simp [optMapList, capitalizeWord]
    | cons c cs =>
      simp only [optMapList, capitalizeWord]
      cases h : optMapList capitalizeWord ws with
      | none => simp [h, ih.1 h]
      | some bs =>
        simp only [h]
        simp
        exact fun hmem => Option.noConfusion ((ih.2 hmem).symm.trans h)

theorem convert_category_none_iff (s : String) :
    convert_category_to_trapi_format s = none ↔ [] ∈ pySplitChars s.data := by
  unfold convert_category_to_trapi_format
  cases h : optMapList capitalizeWord (pySplitChars s.data) with
  | none => simp [h, ← optMapList_capitalize_none_iff]
  | some ws => simp [h, ← optMapList_capitalize_none_iff]

/-- C10: `convert_category_to_trapi_format` fails (with the `IndexError`
from `word[0]` on an empty word, modeled as `none`) exactly when the input
splits into a list containing an empty word — equivalently, exactly when
the input is empty, starts or ends with a space, or contains two
consecutive spaces; `convert_predicate_to_trapi_format` is a total
character-for-character replacement and never raises. -/
theorem name_conversion_totality (s : String) :
    (convert_category_to_trapi_format s = none ↔
      (s.data = [] ∨ s.data.head? = some ' ' ∨ s.data.getLast? = some ' '
        ∨ hasDoubleSpace s.data = true))
    ∧ (convert_category_to_trapi_format s = none ↔ [] ∈ pySplitChars s.data)
    ∧ (convert_predicate_to_trapi_format s).data.length = s.data.length := by
  refine ⟨?_, convert_category_none_iff s, ?_⟩
  · rw [convert_category_none_iff s]
    exact emptyWord_mem_split_iff s.data
  · simp [convert_predicate_to_trapi_format]

/-! ### Generic lemmas about the tree builder -/

theorem dget_mem {d : Dict} {k : String} {v : List String} (h : dget d k = some v) :
    (k, v) ∈ d := by
  induction d with
  | nil => simp [dget] at h
  | cons e rest ih =>
    obtain ⟨ek, ev⟩ := e
    by_cases hek : ek = k
    · subst hek
      simp [dget] at h
      simp [h]
    · simp [dget, hek] at h
      exact List.mem_cons_of_mem _ (ih h)

theorem dgetD_nodup {m : Dict} (hvals : NodupVals m) (k : String) : (dgetD m k).Nodup := by
  unfold dgetD
  cases h : dget m k with
  | none => simp
  | some v => simpa using hvals _ (dget_mem h)

theorem optMapList_some_forall₂ {f : α → Option β} :
    ∀ {l : List α} {ys : List β}, optMapList f l = some ys →
      List.Forall₂ (fun x y => f x = some y) l ys := by
  intro l
  induction l with
  | nil =>
    intro ys h
    simp [optMapList] at h
    subst h
    exact List.Forall₂.nil
  | cons a as ih =>
    intro ys h
    simp only [optMapList] at h
    cases hf : f a with
    | none => rw [hf] at h; cases h
    | some b =>
      rw [hf] at h
      cases hrest : optMapList f as with
      | none => rw [hrest] at h; cases h
      | some bs =>
        rw [hrest] at h
        injection h with h
        rw [← h]
        exact List.Forall₂.cons hf (ih hrest)

theorem forall₂_mem_right {R : α → β → Prop} :
    ∀ {l : List α} {ys : List β}, List.Forall₂ R l ys → ∀ {y : β}, y ∈ ys →
      ∃ x, x ∈ l ∧ R x y := by
  intro l ys h
  induction h with
  | nil => intro y hy; cases hy
  | cons hR _ ih =>
    intro y hy
    rcases List.mem_cons.1 hy with rfl | hy
    · exact ⟨_, List.mem_cons_self _ _, hR⟩
    · obtain ⟨x, hx, hxy⟩ := ih hy
      exact ⟨x, List.mem_cons_of_mem _ hx, hxy⟩

theorem forall₂_mem_left {R : α → β → Prop} :
    ∀ {l : List α} {ys : List β}, List.Forall₂ R l ys → ∀ {x : α}, x ∈ l →
      ∃ y, y ∈ ys ∧ R x y := by
  intro l ys h
  induction h with
  | nil => intro x hx; cases hx
  | cons hR _ ih =>
    intro x hx
    rcases List.mem_cons.1 hx with rfl | hx
    · exact ⟨_, List.mem_cons_self _ _, hR⟩
    · obtain ⟨y, hy, hxy⟩ := ih hx
      exact ⟨y, List.mem_cons_of_mem _ hy, hxy⟩

theorem build_children {m : Dict} {f : Nat} {root : String} {par : Option String}
    {t : TreeNode} (h : get_tree_node_recursive m (f + 1) root par = some t) :
    ∃ cs, optMapList (fun c => get_tree_node_recursive m f c (some root)) (dgetD m root) = some cs
      ∧ t = .mk root par (sortByName cs) := by
  simp only [get_tree_node_recursive] at h
  cases hm : optMapList (fun c => get_tree_node_recursive m f c (some root)) (dgetD m root) with
  | none => rw [hm] at h; cases h
  | some cs =>
    rw [hm] at h
    injection h with h
    exact ⟨cs, rfl, h.symm⟩

theorem build_name {m : Dict} {fuel : Nat} {root : String} {par : Option String}
    {t : TreeNode} (h : get_tree_node_recursive m fuel root par = some t) :
    t.name = root := by
  cases fuel with
  | zero => cases h
  | succ f =>
    obtain ⟨cs, _, rfl⟩ := build_children h
    rfl

theorem build_parent {m : Dict} {fuel : Nat} {root : String} {par : Option String}
    {t : TreeNode} (h : get_tree_node_recursive m fuel root par = some t) :
    t.parent = par := by
  cases fuel with
  | zero => cases h
  | succ f =>
    obtain ⟨cs, _, rfl⟩ := build_children h
    rfl

theorem forall₂_build_names {m : Dict} {f : Nat} {root : String} :
    ∀ {L : List String} {cs : List TreeNode},
      List.Forall₂ (fun c tc => get_tree_node_recursive m f c (some root) = some tc) L cs →
      cs.map TreeNode.name = L := by
  intro L cs h
  induction h with
  | nil => rfl
  | cons hR _ ih => simp [ih, build_name hR]

/-! ### The lexicographic comparison is a total order -/

theorem strLeB_total : ∀ l1 l2 : List Char, strLeB l1 l2 = true ∨ strLeB l2 l1 = true
  | [], l2 => Or.inl rfl
  | a :: as, [] => Or.inr rfl
  | a :: as, b :: bs => by
    rcases lt_trichotomy a b with h | h | h
    · left; simp [strLeB, h]
    · subst h
      rcases strLeB_total as bs with h2 | h2
      · left; simp [strLeB, lt_irrefl, h2]
      · right; simp [strLeB, lt_irrefl, h2]
    · right; simp [strLeB, h]

theorem strLeB_trans : ∀ l1 l2 l3 : List Char,
    strLeB l1 l2 = true → strLeB l2 l3 = true → strLeB l1 l3 = true
  | [], _, _ => fun _ _ => rfl
  | a :: as, [], _ => fun h _ => by simp [strLeB] at h
  | a :: as, b :: bs, [] => fun _ h => by simp [strLeB] at h
  | a :: as, b :: bs, c :: cs => by
    intro h12 h23
    rcases lt_trichotomy a b with hab | hab | hab
    · rcases lt_trichotomy b c with hbc | hbc | hbc
      · simp [strLeB, lt_trans hab hbc]
      · subst hbc; simp [strLeB, hab]
      · simp [strLeB, lt_asymm hbc, hbc] at h23
    · subst hab
      simp only [strLeB, lt_irrefl, if_false] at h12
      rcases lt_trichotomy a c with hbc | hbc | hbc
      · simp [strLeB, hbc]
      · subst hbc
        simp only [strLeB, lt_irrefl, if_false] at h23 ⊢
        exact strLeB_trans as bs cs h12 h23
      · simp [strLeB, lt_asymm hbc, hbc] at h23
    · simp [strLeB, lt_asymm hab, hab] at h12

theorem strLtB_of_le_of_ne : ∀ l1 l2 : List Char,
    strLeB l1 l2 = true → ¬ l1 = l2 → strLtB l1 l2 = true
  | [], [] => fun _ h => absurd rfl h
  | [], b :: bs => fun _ _ => rfl
  | a :: as, [] => fun h _ => by simp [strLeB] at h
  | a :: as, b :: bs => by
    intro hle hne
    rcases lt_trichotomy a b with h | h | h
    · simp [strLtB, h]
    · subst h
      simp only [strLeB, lt_irrefl, if_false] at hle
      have hne' : ¬ as = bs := fun hh => hne (by rw [hh])
      simp only [strLtB, lt_irrefl, if_false]
      exact strLtB_of_le_of_ne as bs hle hne'
    · simp [strLeB, lt_asymm h, h] at hle

theorem string_data_inj {s t : String} (h : s.data = t.data) : s = t :=
  congrArg String.mk h

/-! ### Sorting lemmas -/

theorem insertByName_perm (n : TreeNode) (l : List TreeNode) :
    (insertByName n l).Perm (n :: l) := by
  induction l with
  | nil => exact List.Perm.refl _
  | cons m rest ih =>
    unfold insertByName
    by_cases h : strLeB n.name.data m.name.data = true
    · rw [if_pos h]
    · rw [if_neg h]
      exact (ih.cons m).trans (List.Perm.swap n m rest)

theorem sortByName_perm (l : List TreeNode) : (sortByName l).Perm l := by
  induction l with
  | nil => exact List.Perm.refl _
  | cons t ts ih =>
    unfold sortByName
    exact (insertByName_perm t (sortByName ts)).trans (ih.cons t)

theorem pairwise_le_insertByName (n : TreeNode) (l : List TreeNode)
    (h : l.Pairwise (fun a b => strLeB a.name.data b.name.data = true)) :
    (insertByName n l).Pairwise (fun a b => strLeB a.name.data b.name.data = true) := by
  induction l with
  | nil => simp [insertByName]
  | cons m rest ih =>
    rw [List.pairwise_cons] at h
    unfold insertByName
    by_cases hle : strLeB n.name.data m.name.data = true
    · rw [if_pos hle]
      refine List.Pairwise.cons ?_ (List.Pairwise.cons h.1 h.2)
      intro x hx
      rcases List.mem_cons.1 hx with rfl | hx
      · exact hle
      · exact strLeB_trans _ _ _ hle (h.1 x hx)
    · rw [if_neg hle]
      refine List.Pairwise.cons ?_ (ih h.2)
      intro x hx
      have hx' := (insertByName_perm n rest).mem_iff.1 hx
      rcases List.mem_cons.1 hx' with rfl | hx'
      · rcases strLeB_total m.name.data x.name.data with h2 | h2
        · exact h2
        · exact absurd h2 hle
      · exact h.1 x hx'

theorem pairwise_le_sortByName (l : List TreeNode) :
    (sortByName l).Pairwise (fun a b => strLeB a.name.data b.name.data = true) := by
  induction l with
  | nil => simp [sortByName]
  | cons t ts ih => exact pairwise_le_insertByName t _ ih

/-! ### Claim C9: children lists strictly ascending by name -/

mutual
/-- Every children list in the tree is strictly ascending by name under
the plain lexicographic order on the name's character sequence. -/
def ChildrenSortedStrict : TreeNode → Prop
  | .mk _ _ cs =>
    (cs.map TreeNode.name).Pairwise (fun a b => strLtB a.data b.data = true)
    ∧ ChildrenSortedStrictList cs

def ChildrenSortedStrictList : List TreeNode → Prop
  | [] => True
  | t :: ts => ChildrenSortedStrict t ∧ ChildrenSortedStrictList ts
end

theorem childrenSortedStrictList_iff : ∀ l : List TreeNode,
    ChildrenSortedStrictList l ↔ ∀ t ∈ l, ChildrenSortedStrict t
  | [] => by simp [ChildrenSortedStrictList]
  | t :: ts => by
    rw [ChildrenSortedStrictList, childrenSortedStrictList_iff ts]
    simp

/-- C9: every tree returned by `get_tree_node_recursive` (on a map whose
children sets are duplicate-free, as Python sets are) has every children
list strictly ascending by name in the plain lexicographic code-point
order on the name's character sequence. -/
theorem build_children_sorted (m : Dict) (hvals : NodupVals m) :
    ∀ (fuel : Nat) (root : String) (par : Option String) (t : TreeNode),
      get_tree_node_recursive m fuel root par = some t → ChildrenSortedStrict t := by
  intro fuel
  induction fuel with
  | zero => intro root par t h; cases h
  | succ f ih =>
    intro root par t h
    obtain ⟨cs, hm, rfl⟩ := build_children h
    have hF := optMapList_some_forall₂ hm
    have hnames : cs.map TreeNode.name = dgetD m root := forall₂_build_names hF
    constructor
    · have hperm : ((sortByName cs).map TreeNode.name).Perm (dgetD m root) := by
        rw [← hnames]
        exact (sortByName_perm cs).map TreeNode.name
      have hndup : ((sortByName cs).map TreeNode.name).Nodup :=
        hperm.nodup_iff.2 (dgetD_nodup hvals root)
      have hle := pairwise_le_sortByName cs
      have hne : (sortByName cs).Pairwise (fun a b => ¬ a.name = b.name) :=
        List.pairwise_map.1 hndup
      exact List.pairwise_map.2 ((hle.and hne).imp (fun hab =>
        strLtB_of_le_of_ne _ _ hab.1 (fun hd => hab.2 (string_data_inj hd))))
    · rw [childrenSortedStrictList_iff]
      intro tc htc
      have htc' : tc ∈ cs := ((sortByName_perm cs).mem_iff).1 htc
      obtain ⟨c, _, hbc⟩ := forall₂_mem_right hF htc'
      exact ih c (some root) tc hbc

/-- C9 witness: on edges `[(X, root), (Y, root)]` rooted at `root`, the
built tree lists `X` before `Y` and every children list is strictly
ascending. -/
theorem build_children_sorted_witness :
    ChildrenSortedStrict
      (.mk "root" none [.mk "X" (some "root") [], .mk "Y" (some "root") []])
    ∧ get_tree_node_recursive [("root", ["Y", "X"])] 5 "root" none
      = some (.mk "root" none [.mk "X" (some "root") [], .mk "Y" (some "root") []]) :=
  ⟨build_children_sorted [("root", ["Y", "X"])] (by decide) 5 "root" none _ rfl, rfl⟩

/-! ### Reachability lemmas for the tree builder (claims C7, C8) -/

theorem reachesN_snoc {m : Dict} :
    ∀ {n : Nat} {a b x : String}, ReachesN m n a b → x ∈ dgetD m b →
      ReachesN m (n + 1) a x := by
  intro n a b x h
  induction h with
  | zero => intro hx; exact ReachesN.head hx (ReachesN.zero _)
  | head hmem _ ih => intro hx; exact ReachesN.head hmem (ih hx)

theorem reachesN_append {m : Dict} :
    ∀ {j k : Nat} {a b c : String}, ReachesN m j a b → ReachesN m k b c →
      ReachesN m (j + k) a c := by
  intro j k a b c h1
  induction h1 with
  | zero => intro h2; simpa using h2
  | head hmem _ ih =>
    intro h2
    have := ReachesN.head hmem (ih h2)
    simpa [Nat.succ_add] using this

theorem reaches_iff_exists_reachesN {m : Dict} {a x : String} :
    Reaches m a x ↔ ∃ n, ReachesN m n a x := by
  constructor
  · intro h
    induction h with
    | refl a => exact ⟨0, ReachesN.zero a⟩
    | head hmem _ ih =>
      obtain ⟨n, hn⟩ := ih
      exact ⟨n + 1, ReachesN.head hmem hn⟩
  · rintro ⟨n, hn⟩
    induction hn with
    | zero a => exact Reaches.refl a
    | head hmem _ ih => exact Reaches.head hmem ih

/-- A successful fueled build bounds the length of every downward path
from its root: the recursion really visits the whole reachable region. -/
theorem build_path_bound {m : Dict} :
    ∀ {n : Nat} {a x : String}, ReachesN m n a x →
      ∀ {f : Nat} {p : Option String} {t : TreeNode},
        get_tree_node_recursive m f a p = some t → n < f := by
  intro n a x h
  induction h with
  | zero =>
    intro f p t hb
    cases f with
    | zero => cases hb
    | succ f => omega
  | head hmem _ ih =>
    intro f p t hb
    cases f with
    | zero => cases hb
    | succ f =>
      obtain ⟨cs, hm, rfl⟩ := build_children hb
      obtain ⟨tb, _, hbb⟩ := forall₂_mem_left (optMapList_some_forall₂ hm) hmem
      have := ih hbb
      omega

theorem reachesN_mul {m : Dict} {d : Nat} {a : String} (h : ReachesN m d a a) :
    ∀ t : Nat, ReachesN m (t * d) a a := by
  intro t
  induction t with
  | zero => simpa [Nat.zero_mul] using @ReachesN.zero m a
  | succ t ih =>
    have := reachesN_append ih h
    simpa [Nat.succ_mul] using this

/-- A successful build rules out any cycle at its root name. -/
theorem no_cycle_of_build {m : Dict} {f : Nat} {a : String} {p : Option String}
    {t : TreeNode} (hb : get_tree_node_recursive m f a p = some t)
    {d : Nat} (hd : 0 < d) (hcyc : ReachesN m d a a) : False := by
  have hlt := build_path_bound (reachesN_mul hcyc f) hb
  have : f ≤ f * d := Nat.le_mul_of_pos_right f hd
  omega

theorem mem_treeNamesList : ∀ (l : List TreeNode) (x : String),
    x ∈ treeNamesList l ↔ ∃ t ∈ l, x ∈ treeNames t
  | [], x => by simp [treeNamesList]
  | t :: ts, x => by
    rw [treeNamesList, List.mem_append, mem_treeNamesList ts]
    simp

theorem treeNamesList_perm {l l' : List TreeNode} (h : l.Perm l') :
    (treeNamesList l).Perm (treeNamesList l') := by
  induction h with
  | nil => exact List.Perm.refl _
  | cons x _ ih => exact ih.append_left (treeNames x)
  | swap x y l =>
    show (treeNames y ++ (treeNames x ++ treeNamesList l)).Perm
      (treeNames x ++ (treeNames y ++ treeNamesList l))
    rw [← List.append_assoc, ← List.append_assoc]
    exact (List.perm_append_comm).append_right (treeNamesList l)
  | trans _ _ ih1 ih2 => exact ih1.trans ih2

theorem treeNames_head {t : TreeNode} : t.name ∈ treeNames t := by
  cases t
  simp [treeNames, TreeNode.name]

/-- Every name of a built tree is reachable from the build root. -/
theorem build_names_reachN {m : Dict} :
    ∀ {f : Nat} {a : String} {p : Option String} {t : TreeNode},
      get_tree_node_recursive m f a p = some t →
      ∀ {x : String}, x ∈ treeNames t → ∃ n, ReachesN m n a x := by
  intro f
  induction f with
  | zero => intro a p t hb; cases hb
  | succ f ih =>
    intro a p t hb x hx
    obtain ⟨cs, hm, rfl⟩ := build_children hb
    rw [treeNames] at hx
    rcases List.mem_cons.1 hx with rfl | hx
    · exact ⟨0, ReachesN.zero x⟩
    · obtain ⟨tc, htc, hxin⟩ := (mem_treeNamesList _ _).1 hx
      have htc' : tc ∈ cs := ((sortByName_perm cs).mem_iff).1 htc
      obtain ⟨c, hc, hbc⟩ := forall₂_mem_right (optMapList_some_forall₂ hm) htc'
      obtain ⟨n, hn⟩ := ih hbc hxin
      exact ⟨n + 1, ReachesN.head hc hn⟩

/-- Every name reachable from the build root appears in the built tree. -/
theorem build_reach_names {m : Dict} {a x : String} (hr : Reaches m a x) :
    ∀ {f : Nat} {p : Option String} {t : TreeNode},
      get_tree_node_recursive m f a p = some t → x ∈ treeNames t := by
  induction hr with
  | refl a =>
    intro f p t hb
    rw [← build_name hb]
    exact treeNames_head
  | head hmem _ ih =>
    intro f p t hb
    cases f with
    | zero => cases hb
    | succ f =>
      obtain ⟨cs, hm, rfl⟩ := build_children hb
      obtain ⟨tb, htb, hbb⟩ := forall₂_mem_left (optMapList_some_forall₂ hm) hmem
      rw [treeNames]
      exact List.mem_cons_of_mem _
        ((mem_treeNamesList _ _).2 ⟨tb, ((sortByName_perm cs).mem_iff).2 htb, ih hbb⟩)

/-! ### Child-to-parent iteration (uniqueness of tree positions) -/

theorem ctpFun_entry {m : Dict} {x k : String} (h : ctpFun m x = some k) :
    ∃ v, (k, v) ∈ m ∧ x ∈ v := by
  induction m with
  | nil => simp [ctpFun] at h
  | cons e rest ih =>
    obtain ⟨ek, ev⟩ := e
    by_cases hx : x ∈ ev
    · simp [ctpFun, hx] at h
      exact ⟨ev, by simp [h], hx⟩
    · simp [ctpFun, hx] at h
      obtain ⟨v, hv, hxv⟩ := ih h
      exact ⟨v, List.mem_cons_of_mem _ hv, hxv⟩

theorem ctpFun_isSome {m : Dict} {k : String} {v : List String} {x : String}
    (hkv : (k, v) ∈ m) (hx : x ∈ v) : ∃ p, ctpFun m x = some p := by
  induction m with
  | nil => cases hkv
  | cons e rest ih =>
    obtain ⟨ek, ev⟩ := e
    by_cases hxe : x ∈ ev
    · exact ⟨ek, by simp [ctpFun, hxe]⟩
    · rcases List.mem_cons.1 hkv with he | hmem2
      · exfalso
        injection he with h1 h2
        rw [h2] at hx
        exact hxe hx
      · obtain ⟨p, hp⟩ := ih hmem2
        exact ⟨p, by simp [ctpFun, hxe, hp]⟩

theorem ctpFun_eq_of_mem {m : Dict} (hop : OneParent m) {a x : String}
    (hmem : x ∈ dgetD m a) : ctpFun m x = some a := by
  have hda : ∃ va, dget m a = some va ∧ x ∈ va := by
    unfold dgetD at hmem
    cases h : dget m a with
    | none => rw [h] at hmem; cases hmem
    | some va => exact ⟨va, rfl, by rw [h] at hmem; exact hmem⟩
  obtain ⟨va, hva, hxva⟩ := hda
  have hamem : (a, va) ∈ m := dget_mem hva
  obtain ⟨p, hp⟩ := ctpFun_isSome hamem hxva
  obtain ⟨v, hkv, hxv⟩ := ctpFun_entry hp
  rw [hp]
  exact congrArg some (hop (p, v) hkv (a, va) hamem x hxv hxva)

theorem upN_add (m : Dict) : ∀ (j k : Nat) (x : String),
    upN m (j + k) x =
      match upN m j x with
      | some y => upN m k y
      | none => none := by
  intro j
  induction j with
  | zero => intro k x; simp [upN, Nat.zero_add]
  | succ j ih =>
    intro k x
    rw [show j + 1 + k = (j + k) + 1 from by omega]
    show (match ctpFun m x with
          | some p => upN m (j + k) p
          | none => none) = _
    cases hc : ctpFun m x with
    | none =>
      have hx : upN m (j + 1) x = none := by simp only [upN, hc]
      rw [hx]
    | some p =>
      have hx : upN m (j + 1) x = upN m j p := by simp only [upN, hc]
      show upN m (j + k) p = _
      rw [ih k p, hx]

theorem upN_succ_far (m : Dict) (n : Nat) (x : String) :
    upN m (n + 1) x =
      match upN m n x with
      | some y => ctpFun m y
      | none => none := by
  rw [upN_add m n 1]
  cases h : upN m n x with
  | none => rfl
  | some y =>
    show (match ctpFun m y with
          | some p => upN m 0 p
          | none => none) = ctpFun m y
    cases ctpFun m y <;> rfl

theorem ctpFun_mem_dgetD {m : Dict} (hk : NodupKeys m) {x p : String}
    (h : ctpFun m x = some p) : x ∈ dgetD m p := by
  induction m with
  | nil => simp [ctpFun] at h
  | cons e rest ih =>
    obtain ⟨ek, ev⟩ := e
    simp only [NodupKeys, List.map_cons, List.nodup_cons] at hk
    by_cases hx : x ∈ ev
    · simp [ctpFun, hx] at h
      subst h
      simp [dgetD, dget, hx]
    · simp [ctpFun, hx] at h
      have hmem := ih hk.2 h
      have hpk : ¬ p = ek := by
        intro he
        subst he
        have hne : dget rest p ≠ none := by
          intro hn
          rw [dgetD, hn] at hmem
          cases hmem
        cases hd : dget rest p with
        | none => exact hne hd
        | some v => exact hk.1 (List.mem_map.2 ⟨(p, v), dget_mem hd, rfl⟩)
      have hstep : dget ((ek, ev) :: rest) p = dget rest p := by
        rw [show dget ((ek, ev) :: rest) p = if ek = p then some ev else dget rest p from rfl,
          if_neg (fun hh : ek = p => hpk hh.symm)]
      rw [dgetD, hstep]
      exact hmem

theorem reachesN_upN {m : Dict} (hk : NodupKeys m) (hop : OneParent m) :
    ∀ {n : Nat} {a x : String}, ReachesN m n a x → upN m n x = some a := by
  intro n a x h
  induction h with
  | zero => rfl
  | head hmem _ ih =>
    rw [upN_succ_far, ih]
    show ctpFun m _ = some _
    exact ctpFun_eq_of_mem hop hmem

theorem upN_reachesN {m : Dict} (hk : NodupKeys m) :
    ∀ {n : Nat} {x a : String}, upN m n x = some a → ReachesN m n a x := by
  intro n
  induction n with
  | zero =>
    intro x a h
    simp [upN] at h
    subst h
    exact ReachesN.zero x
  | succ n ih =>
    intro x a h
    show ReachesN m (n + 1) a x
    rw [show (upN m (n + 1) x =
      match ctpFun m x with
      | some p => upN m n p
      | none => none) from rfl] at h
    cases hc : ctpFun m x with
    | none => rw [hc] at h; cases h
    | some p =>
      rw [hc] at h
      exact reachesN_snoc (ih h) (ctpFun_mem_dgetD hk hc)

/-- Two distinct children of a node rooting a successful build have
disjoint subtrees (at most one parent per child + no cycle at the root). -/
theorem build_subtree_disjoint {m : Dict} (hk : NodupKeys m) (hop : OneParent m)
    {fa : Nat} {a : String} {pa : Option String} {ta : TreeNode}
    (hba : get_tree_node_recursive m fa a pa = some ta)
    {c c' : String} (hc : c ∈ dgetD m a) (hc' : c' ∈ dgetD m a) (hne : ¬ c = c')
    {f f' : Nat} {p p' : Option String} {t t' : TreeNode}
    (hb : get_tree_node_recursive m f c p = some t)
    (hb' : get_tree_node_recursive m f' c' p' = some t')
    {x : String} (hx : x ∈ treeNames t) (hx' : x ∈ treeNames t') : False := by
  obtain ⟨n1, h1⟩ := build_names_reachN hb hx
  obtain ⟨n2, h2⟩ := build_names_reachN hb' hx'
  have hu1 : upN m n1 x = some c := reachesN_upN hk hop h1
  have hu2 : upN m n2 x = some c' := reachesN_upN hk hop h2
  have hua1 : upN m (n1 + 1) x = some a := reachesN_upN hk hop (ReachesN.head hc h1)
  have hua2 : upN m (n2 + 1) x = some a := reachesN_upN hk hop (ReachesN.head hc' h2)
  rcases Nat.lt_trichotomy n1 n2 with hlt | heq | hlt
  · have hsplit := upN_add m (n1 + 1) (n2 - n1) x
    rw [show n1 + 1 + (n2 - n1) = n2 + 1 from by omega, hua2, hua1] at hsplit
    have hcyc := upN_reachesN hk hsplit.symm
    exact no_cycle_of_build hba (by omega) hcyc
  · subst heq
    rw [hu1] at hu2
    injection hu2 with hu2
    exact hne hu2
  · have hsplit := upN_add m (n2 + 1) (n1 - n2) x
    rw [show n2 + 1 + (n1 - n2) = n1 + 1 from by omega, hua1, hua2] at hsplit
    have hcyc := upN_reachesN hk hsplit.symm
    exact no_cycle_of_build hba (by omega) hcyc

theorem namesList_nodup_aux {m : Dict} (hk : NodupKeys m) (hop : OneParent m)
    {fa : Nat} {a : String} {pa : Option String} {ta : TreeNode}
    (hba : get_tree_node_recursive m fa a pa = some ta)
    {f : Nat}
    (ihf : ∀ {c : String} {p : Option String} {t : TreeNode},
      get_tree_node_recursive m f c p = some t → (treeNames t).Nodup) :
    ∀ {L : List String} {cs : List TreeNode},
      List.Forall₂ (fun c tc => get_tree_node_recursive m f c (some a) = some tc) L cs →
      L.Nodup → (∀ c ∈ L, c ∈ dgetD m a) → (treeNamesList cs).Nodup := by
  intro L cs hF
  induction hF with
  | nil => intro _ _; simp [treeNamesList]
  | cons hR hFrest ihrest =>
    rename_i c tc L' cs'
    intro hnd hsub
    rw [List.nodup_cons] at hnd
    rw [treeNamesList, List.nodup_append]
    refine ⟨ihf hR, ihrest hnd.2 (fun y hy => hsub y (List.mem_cons_of_mem _ hy)), ?_⟩
    intro x hx1 hx2
    obtain ⟨tc', htc', hx'⟩ := (mem_treeNamesList _ _).1 hx2
    obtain ⟨c', hc'L, hbc'⟩ := forall₂_mem_right hFrest htc'
    have hnec : ¬ c = c' := fun he => hnd.1 (he ▸ hc'L)
    exact build_subtree_disjoint hk hop hba
      (hsub c (List.mem_cons_self _ _)) (hsub c' (List.mem_cons_of_mem _ hc'L))
      hnec hR hbc' hx1 hx'

theorem build_names_nodup {m : Dict} (hk : NodupKeys m) (hv : NodupVals m)
    (hop : OneParent m) :
    ∀ {f : Nat} {a : String} {p : Option String} {t : TreeNode},
      get_tree_node_recursive m f a p = some t → (treeNames t).Nodup := by
  intro f
  induction f with
  | zero => intro a p t hb; cases hb
  | succ f ih =>
    intro a p t hb
    obtain ⟨cs, hm, rfl⟩ := build_children hb
    rw [treeNames]
    have hperm : (treeNamesList (sortByName cs)).Perm (treeNamesList cs) :=
      treeNamesList_perm (sortByName_perm cs)
    rw [List.nodup_cons]
    constructor
    · intro hmem
      have hmem' : a ∈ treeNamesList cs := hperm.subset hmem
      obtain ⟨tc, htc, hxin⟩ := (mem_treeNamesList _ _).1 hmem'
      obtain ⟨c, hcL, hbc⟩ := forall₂_mem_right (optMapList_some_forall₂ hm) htc
      obtain ⟨n, hn⟩ := build_names_reachN hbc hxin
      exact no_cycle_of_build hb (Nat.succ_pos n) (ReachesN.head hcL hn)
    · refine hperm.nodup_iff.2 ?_
      exact namesList_nodup_aux hk hop hb (fun {c p t} hh => ih hh)
        (optMapList_some_forall₂ hm) (dgetD_nodup hv a) (fun c hc => hc)

/-! ### Termination on acyclic input (claims C7 and the acyclic half of §4.3) -/

/-- The map is acyclic with respect to `root`: no name reachable from the
root lies on a nonempty directed cycle. -/
def AcyclicFrom (m : Dict) (root : String) : Prop :=
  ∀ x, Reaches m root x → ∀ d, 0 < d → ¬ ReachesN m d x x

/-- Consecutive elements follow parent→child edges of the map. -/
def IsPath (m : Dict) : List String → Prop
  | [] => True
  | [_] => True
  | a :: b :: rest => b ∈ dgetD m a ∧ IsPath m (b :: rest)

theorem isPath_tail {m : Dict} {a : String} {l : List String}
    (h : IsPath m (a :: l)) : IsPath m l := by
  cases l with
  | nil => trivial
  | cons b rest => exact h.2

theorem reachesN_exists_path {m : Dict} :
    ∀ {n : Nat} {a x : String}, ReachesN m n a x →
      ∃ l, IsPath m (a :: l) ∧ l.length = n ∧ (a :: l).getLast? = some x := by
  intro n a x h
  induction h with
  | zero => exact ⟨[], trivial, rfl, rfl⟩
  | head hmem _ ih =>
    obtain ⟨l, hp, hlen, hlast⟩ := ih
    exact ⟨_ :: l, ⟨hmem, hp⟩, by simp [hlen], by rw [List.getLast?_cons_cons]; exact hlast⟩

theorem isPath_reachesN {m : Dict} :
    ∀ (l : List String) (x y : String), IsPath m (x :: l) →
      (x :: l).getLast? = some y → ReachesN m l.length x y
  | [], x, y, _, hlast => by
    simp at hlast
    subst hlast
    exact ReachesN.zero _
  | b :: l', x, y, hp, hlast => by
    rw [List.getLast?_cons_cons] at hlast
    exact ReachesN.head hp.1 (isPath_reachesN l' b y hp.2 hlast)

theorem isPath_suffix {m : Dict} :
    ∀ {l1 l2 : List String}, IsPath m (l1 ++ l2) → IsPath m l2 := by
  intro l1
  induction l1 with
  | nil => intro l2 h; exact h
  | cons a l1' ih => intro l2 h; exact ih (isPath_tail h)

theorem isPath_prefix {m : Dict} :
    ∀ {l1 l2 : List String}, IsPath m (l1 ++ l2) → IsPath m l1 := by
  intro l1
  induction l1 with
  | nil => intro l2 _; trivial
  | cons a l1' ih =>
    intro l2 h
    cases l1' with
    | nil => trivial
    | cons b l1'' =>
      exact ⟨h.1, @ih l2 h.2⟩

theorem isPath_dropLast_keys {m : Dict} :
    ∀ {l : List String}, IsPath m l → ∀ y ∈ l.dropLast, y ∈ m.map Prod.fst
  | [], _, y, hy => by cases hy
  | [a], _, y, hy => by cases hy
  | a :: b :: rest, h, y, hy => by
    rw [show (a :: b :: rest).dropLast = a :: (b :: rest).dropLast from rfl] at hy
    rcases List.mem_cons.1 hy with rfl | hy
    · have hmem := h.1
      unfold dgetD at hmem
      cases hd : dget m y with
      | none => rw [hd] at hmem; cases hmem
      | some v => exact List.mem_map.2 ⟨(y, v), dget_mem hd, rfl⟩
    · exact isPath_dropLast_keys h.2 y hy

theorem exists_dup_split {α : Type} {l : List α} (h : ¬ l.Nodup) :
    ∃ (x : α) (l1 l2 l3 : List α), l = l1 ++ x :: l2 ++ x :: l3 := by
  induction l with
  | nil => exact absurd List.nodup_nil h
  | cons c rest ih =>
    by_cases hc : c ∈ rest
    · obtain ⟨s, t, rfl⟩ := List.append_of_mem hc
      exact ⟨c, [], s, t, rfl⟩
    · have hrest : ¬ rest.Nodup := fun hn => h (List.nodup_cons.2 ⟨hc, hn⟩)
      obtain ⟨x, l1, l2, l3, rfl⟩ := ih hrest
      exact ⟨x, c :: l1, l2, l3, rfl⟩

/-- On a map acyclic from the root, every downward path from the root is
no longer than the number of keys (pigeonhole). -/
theorem acyclicFrom_path_bound {m : Dict} {root : String} (hac : AcyclicFrom m root) :
    ∀ {n : Nat} {x : String}, ReachesN m n root x → n ≤ (m.map Prod.fst).length := by
  intro n x h
  by_contra hgt
  push_neg at hgt
  obtain ⟨l, hpath, hlen, _⟩ := reachesN_exists_path h
  have hkeys : ∀ y ∈ (root :: l).dropLast, y ∈ m.map Prod.fst :=
    isPath_dropLast_keys hpath
  have hndn : ¬ (root :: l).Nodup := by
    intro hnd
    have hnd' : (root :: l).dropLast.Nodup :=
      (List.dropLast_sublist (root :: l)).nodup hnd
    have hle := (List.subperm_of_subset hnd' hkeys).length_le
    have hlen' : (root :: l).dropLast.length = n := by
      rw [List.length_dropLast]
      simp [hlen]
    omega
  obtain ⟨x0, p1, p2, p3, hsplit⟩ := exists_dup_split hndn
  have hreach : Reaches m root x0 := by
    have hpre : IsPath m (p1 ++ [x0]) := by
      have he : root :: l = (p1 ++ [x0]) ++ (p2 ++ x0 :: p3) := by
        rw [hsplit]; simp
      exact isPath_prefix (he ▸ hpath)
    cases p1 with
    | nil =>
      simp only [List.nil_append, List.cons_append] at hsplit
      injection hsplit with h1 _
      rw [h1]
      exact Reaches.refl x0
    | cons r p1' =>
      have hr : r = root := by
        rw [List.cons_append] at hsplit
        injection hsplit with h1 _
        exact h1.symm
      have hpre2 : IsPath m (r :: (p1' ++ [x0])) := by
        rw [← List.cons_append]
        exact hpre
      have hlast : (r :: (p1' ++ [x0])).getLast? = some x0 := by
        rw [show (r :: (p1' ++ [x0])) = (r :: p1') ++ [x0] from
          (List.cons_append r p1' [x0]).symm, List.getLast?_concat]
      rw [← hr]
      exact (reaches_iff_exists_reachesN).2 ⟨_, isPath_reachesN _ _ _ hpre2 hlast⟩
  have hcyc : ReachesN m (p2.length + 1) x0 x0 := by
    have hsuf : IsPath m (x0 :: (p2 ++ x0 :: p3)) := by
      have he : root :: l = p1 ++ (x0 :: (p2 ++ x0 :: p3)) := by
        rw [hsplit]; simp
      exact isPath_suffix (he ▸ hpath)
    have hpre3 : IsPath m (x0 :: (p2 ++ [x0])) := by
      have he : x0 :: (p2 ++ x0 :: p3) = (x0 :: (p2 ++ [x0])) ++ p3 := by
        simp
      exact isPath_prefix (he ▸ hsuf)
    have hlast2 : (x0 :: (p2 ++ [x0])).getLast? = some x0 := by
      rw [show (x0 :: (p2 ++ [x0])) = (x0 :: p2) ++ [x0] from
        (List.cons_append x0 p2 [x0]).symm, List.getLast?_concat]
    have := isPath_reachesN _ _ _ hpre3 hlast2
    simpa using this
  exact hac x0 hreach _ (by omega) hcyc

theorem optMapList_total {f : α → Option β} :
    ∀ {l : List α}, (∀ x ∈ l, ∃ y, f x = some y) → ∃ ys, optMapList f l = some ys := by
  intro l
  induction l with
  | nil => intro _; exact ⟨[], rfl⟩
  | cons a as ih =>
    intro h
    obtain ⟨y, hy⟩ := h a (List.mem_cons_self a as)
    obtain ⟨ys, hys⟩ := ih (fun x hx => h x (List.mem_cons_of_mem _ hx))
    exact ⟨y :: ys, by simp [optMapList, hy, hys]⟩

/-- With fuel exceeding the length of every path from the root, the
builder succeeds. -/
theorem build_total {m : Dict} :
    ∀ {f : Nat} {a : String}, (∀ (n : Nat) (x : String), ReachesN m n a x → n < f) →
      ∀ (p : Option String), ∃ t, get_tree_node_recursive m f a p = some t := by
  intro f
  induction f with
  | zero =>
    intro a h p
    exact absurd (h 0 a (ReachesN.zero a)) (by omega)
  | succ f ih =>
    intro a h p
    obtain ⟨cs, hcs⟩ := @optMapList_total String TreeNode
      (fun c => get_tree_node_recursive m f c (some a)) (dgetD m a)
      (fun c hcmem =>
        ih (fun n x hx => by have := h (n + 1) x (ReachesN.head hcmem hx); omega) (some a))
    exact ⟨.mk a p (sortByName cs), by simp only [get_tree_node_recursive, hcs]⟩

theorem mem_flattenPairsList : ∀ (l : List TreeNode) (q : String × Option String),
    q ∈ flattenPairsList l ↔ ∃ t ∈ l, q ∈ flattenPairs t
  | [], q => by simp [flattenPairsList]
  | t :: ts, q => by
    rw [flattenPairsList, List.mem_append, mem_flattenPairsList ts]
    simp

theorem flattenPairs_head {t : TreeNode} : (t.name, t.parent) ∈ flattenPairs t := by
  cases t
  simp [flattenPairs, TreeNode.name, TreeNode.parent]

/-- Every name of a built tree roots its own successful sub-build whose
flattened pairs are contained in the whole tree's. -/
theorem build_subtree {m : Dict} :
    ∀ {f : Nat} {a : String} {p : Option String} {t : TreeNode},
      get_tree_node_recursive m f a p = some t →
      ∀ {x : String}, x ∈ treeNames t →
        ∃ (f' : Nat) (p' : Option String) (t' : TreeNode),
          get_tree_node_recursive m f' x p' = some t' ∧ flattenPairs t' ⊆ flattenPairs t := by
  intro f
  induction f with
  | zero => intro a p t hb; cases hb
  | succ f ih =>
    intro a p t hb x hx
    obtain ⟨cs, hm, rfl⟩ := build_children hb
    rw [treeNames] at hx
    rcases List.mem_cons.1 hx with rfl | hx
    · exact ⟨f + 1, p, _, hb, fun q hq => hq⟩
    · obtain ⟨tc, htc, hxin⟩ := (mem_treeNamesList _ _).1 hx
      obtain ⟨c, hcL, hbc⟩ :=
        forall₂_mem_right (optMapList_some_forall₂ hm) (((sortByName_perm cs).mem_iff).1 htc)
      obtain ⟨f', p', t', hb', hsub⟩ := ih hbc hxin
      refine ⟨f', p', t', hb', fun q hq => ?_⟩
      rw [flattenPairs]
      exact List.mem_cons_of_mem _ ((mem_flattenPairsList _ _).2 ⟨tc, htc, hsub hq⟩)

/-- A successful build certifies acyclicity from its root. -/
theorem acyclicFrom_of_build {m : Dict} {f : Nat} {root : String} {p : Option String}
    {t : TreeNode} (hb : get_tree_node_recursive m f root p = some t) :
    AcyclicFrom m root := by
  intro x hr d hd hcyc
  obtain ⟨f', p', t', hb', _⟩ := build_subtree hb (build_reach_names hr hb)
  exact no_cycle_of_build hb' hd hcyc

/-! ### Claim C7: the built tree holds exactly the reachable names -/

/-- C7: on a HierarchyMap satisfying the §3 invariants (distinct keys,
duplicate-free children sets, at most one parent per child) that is
acyclic with respect to the root, the builder terminates (fuel one more
than the number of keys suffices), and every tree it returns contains
exactly the names transitively reachable from the root, each exactly
once; moreover a root name that is not a key yields the single childless
node rather than an error. -/
theorem build_tree_exactly_reachable (m : Dict) (root : String)
    (hk : NodupKeys m) (hv : NodupVals m) (hop : OneParent m)
    (hac : AcyclicFrom m root) :
    (∃ t, get_tree_node_recursive m ((m.map Prod.fst).length + 1) root none = some t)
    ∧ (∀ (fuel : Nat) (t : TreeNode),
        get_tree_node_recursive m fuel root none = some t →
          (treeNames t).Nodup ∧ ∀ x, (x ∈ treeNames t ↔ Reaches m root x))
    ∧ (∀ (m' : Dict) (root' : String) (f : Nat), dget m' root' = none →
        get_tree_node_recursive m' (f + 1) root' none = some (.mk root' none [])) := by
  refine ⟨?_, ?_, ?_⟩
  · exact build_total (fun n x hx => Nat.lt_succ_of_le (acyclicFrom_path_bound hac hx)) none
  · intro fuel t hb
    refine ⟨build_names_nodup hk hv hop hb, fun x => ⟨?_, ?_⟩⟩
    · intro hx
      obtain ⟨n, hn⟩ := build_names_reachN hb hx
      exact (reaches_iff_exists_reachesN).2 ⟨n, hn⟩
    · intro hr
      exact build_reach_names hr hb
  · intro m' root' f hnone
    simp [get_tree_node_recursive, dgetD, hnone, optMapList, sortByName]

/-- C7 witness: the theorem applied to the concrete acyclic map
`{r: {b, a}, a: {c}}` (the tree holds exactly r, a, b, c once each) and
to a map without the root key. -/
theorem build_tree_exactly_reachable_witness :
    ((treeNames (.mk "r" none
        [.mk "a" (some "r") [.mk "c" (some "a") []], .mk "b" (some "r") []])).Nodup
      ∧ ("c" ∈ treeNames (.mk "r" none
        [.mk "a" (some "r") [.mk "c" (some "a") []], .mk "b" (some "r") []])
          ↔ Reaches [("r", ["b", "a"]), ("a", ["c"])] "r" "c"))
    ∧ get_tree_node_recursive [("q", ["z"])] 1 "nokey" none = some (.mk "nokey" none []) := by
  have H := build_tree_exactly_reachable [("r", ["b", "a"]), ("a", ["c"])] "r"
    (by decide) (by decide) (by decide)
    (@acyclicFrom_of_build [("r", ["b", "a"]), ("a", ["c"])] 5 "r" none
      (.mk "r" none [.mk "a" (some "r") [.mk "c" (some "a") []], .mk "b" (some "r") []])
      rfl)
  exact ⟨⟨(H.2.1 5 _ rfl).1, (H.2.1 5 _ rfl).2 "c"⟩, H.2.2 [("q", ["z"])] "nokey" 0 rfl⟩

/-! ### Claim C8: round-trip between the tree and the map -/

theorem build_flatten_sub {m : Dict} :
    ∀ {f : Nat} {a : String} {p : Option String} {t : TreeNode},
      get_tree_node_recursive m f a p = some t →
      ∀ {c : String} {q : Option String}, (c, q) ∈ flattenPairs t →
        (c = a ∧ q = p) ∨ ∃ pp, q = some pp ∧ Reaches m a pp ∧ c ∈ dgetD m pp := by
  intro f
  induction f with
  | zero => intro a p t hb; cases hb
  | succ f ih =>
    intro a p t hb c q hcq
    obtain ⟨cs, hm, rfl⟩ := build_children hb
    rw [flattenPairs] at hcq
    rcases List.mem_cons.1 hcq with heq | hcq
    · left
      injection heq with h1 h2
      exact ⟨h1, h2⟩
    · obtain ⟨tc, htc, hin⟩ := (mem_flattenPairsList _ _).1 hcq
      obtain ⟨cb, hcbL, hbc⟩ :=
        forall₂_mem_right (optMapList_some_forall₂ hm) (((sortByName_perm cs).mem_iff).1 htc)
      rcases ih hbc hin with ⟨h1, h2⟩ | ⟨pp, h1, hr, hc⟩
      · right
        refine ⟨a, h2, Reaches.refl a, ?_⟩
        rw [h1]
        exact hcbL
      · exact Or.inr ⟨pp, h1, Reaches.head hcbL hr, hc⟩

/-- C8: flattening a built tree into its (child, parent back-reference)
pairs reproduces exactly the HierarchyMap restricted to the names
reachable from the root: `(c, some p)` occurs among the flattened pairs
iff `p` is reachable from the root and `c` is one of `p`'s children in
the map. -/
theorem build_flatten_roundtrip (m : Dict) (root : String) (fuel : Nat) (t : TreeNode)
    (hb : get_tree_node_recursive m fuel root none = some t) :
    ∀ c p : String, ((c, some p) ∈ flattenPairs t ↔ (Reaches m root p ∧ c ∈ dgetD m p)) := by
  intro c p
  constructor
  · intro h
    rcases build_flatten_sub hb h with ⟨_, hq⟩ | ⟨pp, hq, hr, hc⟩
    · cases hq
    · injection hq with hq
      subst hq
      exact ⟨hr, hc⟩
  · rintro ⟨hr, hc⟩
    obtain ⟨f', p', t', hb', hsub⟩ := build_subtree hb (build_reach_names hr hb)
    cases f' with
    | zero => cases hb'
    | succ f'' =>
      obtain ⟨cs', hm', rfl⟩ := build_children hb'
      obtain ⟨tc, htc, hbc⟩ := forall₂_mem_left (optMapList_some_forall₂ hm') hc
      have hhead : (c, some p) ∈ flattenPairs tc := by
        rw [← build_name hbc, ← build_parent hbc]
        exact flattenPairs_head
      refine hsub ?_
      rw [flattenPairs]
      exact List.mem_cons_of_mem _
        ((mem_flattenPairsList _ _).2 ⟨tc, ((sortByName_perm cs').mem_iff).2 htc, hhead⟩)

/-- C8 witness: the round-trip instantiated on `{r: {a}, a: {c}}`. -/
theorem build_flatten_roundtrip_witness :
    ("c", some "a") ∈ flattenPairs (.mk "r" none [.mk "a" (some "r") [.mk "c" (some "a") []]])
      ↔ (Reaches [("r", ["a"]), ("a", ["c"])] "r" "a"
          ∧ "c" ∈ dgetD [("r", ["a"]), ("a", ["c"])] "a") :=
  build_flatten_roundtrip [("r", ["a"]), ("a", ["c"])] "r" 5
    (.mk "r" none [.mk "a" (some "r") [.mk "c" (some "a") []]]) rfl "c" "a"

/-! ### Claim C6: ancestor classification walks the child→parent chain -/

def olookup : List (String × Option String) → String → Option (Option String)
  | [], _ => none
  | (k', v) :: rest, k => if k' = k then some v else olookup rest k

theorem alookup_none_of_not_mem {l : SDict} {k : String}
    (h : k ∉ l.map Prod.fst) : alookup l k = none := by
  induction l with
  | nil => rfl
  | cons e rest ih =>
    obtain ⟨ek, ev⟩ := e
    simp only [List.map_cons, List.mem_cons] at h
    push_neg at h
    have hek : ¬ ek = k := fun hh => h.1 hh.symm
    simp [alookup, hek, ih h.2]

theorem forall₂_keys {α β : Type} {R : (String × α) → (String × β) → Prop}
    (hkey : ∀ cp r, R cp r → r.1 = cp.1) :
    ∀ {l : List (String × α)} {l' : List (String × β)}, List.Forall₂ R l l' →
      l'.map Prod.fst = l.map Prod.fst := by
  intro l l' h
  induction h with
  | nil => rfl
  | cons hR _ ih => simp [ih, hkey _ _ hR]

theorem forall₂_alookup {P : String → String → Option String → Prop} :
    ∀ {l : SDict} {l' : List (String × Option String)},
      List.Forall₂ (fun cp r => r.1 = cp.1 ∧ P cp.1 cp.2 r.2) l l' →
      NodupKeys l → ∀ {k v : String}, alookup l k = some v →
        ∃ w, olookup l' k = some w ∧ P k v w := by
  intro l l' hF
  induction hF with
  | nil => intro _ k v h; cases h
  | cons hR hFrest ih =>
    rename_i cp r l1 l1'
    intro hnd k v h
    obtain ⟨c0, p0⟩ := cp
    obtain ⟨r1, r2⟩ := r
    have hr1 : r1 = c0 := hR.1
    have hP : P c0 p0 r2 := hR.2
    simp only [NodupKeys, List.map_cons, List.nodup_cons] at hnd
    by_cases hk : c0 = k
    · subst hk
      simp [alookup] at h
      subst h
      refine ⟨r2, ?_, hP⟩
      rw [show olookup ((r1, r2) :: l1') c0
        = if r1 = c0 then some r2 else olookup l1' c0 from rfl, if_pos hr1]
    · simp only [alookup, if_neg hk] at h
      obtain ⟨w, hw, hPw⟩ := ih hnd.2 h
      refine ⟨w, ?_, hPw⟩
      have hr1k : ¬ r1 = k := by rw [hr1]; exact hk
      rw [show olookup ((r1, r2) :: l1') k
        = if r1 = k then some r2 else olookup l1' k from rfl, if_neg hr1k]
      exact hw

theorem filter_truthy_cons_none (c0 : String) (rest : List (String × Option String)) :
    filter_truthy ((c0, none) :: rest) = filter_truthy rest := rfl

theorem filter_truthy_cons_some (c0 s : String) (rest : List (String × Option String)) :
    filter_truthy ((c0, some s) :: rest)
      = if s = "" then filter_truthy rest else (c0, s) :: filter_truthy rest := by
  by_cases hs : s = "" <;> simp [filter_truthy, hs]

theorem keys_filter_truthy_subset {l : List (String × Option String)} :
    ∀ x ∈ (filter_truthy l).map Prod.fst, x ∈ l.map Prod.fst := by
  intro x hx
  induction l with
  | nil => cases hx
  | cons e rest ih =>
    obtain ⟨c0, v0⟩ := e
    cases v0 with
    | none =>
      rw [filter_truthy_cons_none] at hx
      exact List.mem_cons_of_mem _ (ih hx)
    | some s =>
      rw [filter_truthy_cons_some] at hx
      by_cases hs : s = ""
      · rw [if_pos hs] at hx
        exact List.mem_cons_of_mem _ (ih hx)
      · rw [if_neg hs] at hx
        rcases List.mem_cons.1 hx with rfl | hx
        · exact List.mem_cons_self _ _
        · exact List.mem_cons_of_mem _ (ih hx)

theorem alookup_filter_truthy {cmb : List (String × Option String)} :
    NodupKeys cmb → ∀ {k : String} {w : Option String}, olookup cmb k = some w →
      alookup (filter_truthy cmb) k =
        match w with
        | some s => if s = "" then none else some s
        | none => none := by
  induction cmb with
  | nil => intro _ k w h; cases h
  | cons e rest ih =>
    obtain ⟨c0, v0⟩ := e
    intro hnd k w h
    simp only [NodupKeys, List.map_cons, List.nodup_cons] at hnd
    by_cases hk : c0 = k
    · subst hk
      simp only [olookup, if_pos rfl] at h
      injection h with h
      subst h
      have hnone : alookup (filter_truthy rest) c0 = none :=
        alookup_none_of_not_mem (fun hmem => hnd.1 (keys_filter_truthy_subset c0 hmem))
      cases v0 with
      | none =>
        rw [filter_truthy_cons_none]
        exact hnone
      | some s =>
        rw [filter_truthy_cons_some]
        by_cases hs : s = ""
        · rw [if_pos hs]
          show alookup (filter_truthy rest) c0 = if s = "" then none else some s
          rw [if_pos hs]
          exact hnone
        · rw [if_neg hs]
          show alookup ((c0, s) :: filter_truthy rest) c0 = if s = "" then none else some s
          rw [if_neg hs]
          simp [alookup]
    · simp only [olookup, if_neg hk] at h
      have hres := ih hnd.2 h
      cases v0 with
      | none =>
        rw [filter_truthy_cons_none]
        exact hres
      | some s =>
        rw [filter_truthy_cons_some]
        by_cases hs : s = ""
        · rw [if_pos hs]
          exact hres
        · rw [if_neg hs]
          rw [show alookup ((c0, s) :: filter_truthy rest) k
            = if c0 = k then some s else alookup (filter_truthy rest) k from rfl, if_neg hk]
          exact hres

theorem chainIter_zero (ctp : SDict) (k : String) : chainIter ctp 0 k = some k := rfl

theorem chainIter_succ_eq (ctp : SDict) (j : Nat) (k : String) :
    chainIter ctp (j + 1) k =
      match alookup ctp k with
      | some q => chainIter ctp j q
      | none => none := rfl

theorem chainIter_ne_empty {ctp : SDict} (hne : ∀ e ∈ ctp, e.1 ≠ "" ∧ e.2 ≠ "") :
    ∀ (j : Nat) (k y : String), k ≠ "" → chainIter ctp j k = some y → y ≠ "" := by
  intro j
  induction j with
  | zero =>
    intro k y hk h
    rw [chainIter_zero] at h
    injection h with h
    rw [← h]
    exact hk
  | succ j ih =>
    intro k y hk h
    rw [chainIter_succ_eq] at h
    cases ha : alookup ctp k with
    | none => rw [ha] at h; cases h
    | some k1 =>
      rw [ha] at h
      exact ih k1 y (hne _ (alookup_mem ha)).2 h

theorem whileWalk_of_none {ctp : SDict} {mb : List String} :
    ∀ {f : Nat} {r : Option String}, whileWalk ctp mb f none = some r → r = none := by
  intro f r h
  cases f with
  | zero => cases h
  | succ f =>
    injection h with h
    exact h.symm

theorem whileWalk_succ_eq (ctp : SDict) (mb : List String) (f : Nat) (a : String) :
    whileWalk ctp mb (f + 1) (some a) =
      if a ≠ "" ∧ a ∉ mb then whileWalk ctp mb f (alookup ctp a) else some (some a) := rfl

/-- A terminating classification walk started at `a` returns the first
member of `mb` on the child→parent chain from `a`. -/
theorem whileWalk_first_mb {ctp : SDict} {mb : List String} :
    ∀ {f : Nat} {a : String} {r : Option String},
      whileWalk ctp mb f (some a) = some r →
      ∀ {n : Nat} {b : String}, chainIter ctp n a = some b → b ∈ mb →
        (∀ j y, j < n → chainIter ctp j a = some y → (y ≠ "" ∧ y ∉ mb)) →
        r = some b := by
  intro f
  induction f with
  | zero => intro a r h; cases h
  | succ f ih =>
    intro a r h n b hchain hbmb hmid
    by_cases hcond : a ≠ "" ∧ a ∉ mb
    · rw [whileWalk_succ_eq, if_pos hcond] at h
      cases n with
      | zero =>
        rw [chainIter_zero] at hchain
        injection hchain with hchain
        rw [← hchain] at hbmb
        exact absurd hbmb hcond.2
      | succ n' =>
        rw [chainIter_succ_eq] at hchain
        cases ha : alookup ctp a with
        | none => rw [ha] at hchain; cases hchain
        | some a1 =>
          rw [ha] at hchain h
          refine ih h hchain hbmb ?_
          intro j y hj hcj
          refine hmid (j + 1) y (by omega) ?_
          rw [chainIter_succ_eq, ha]
          exact hcj
    · rw [whileWalk_succ_eq, if_neg hcond] at h
      injection h with h
      cases n with
      | zero =>
        rw [chainIter_zero] at hchain
        injection hchain with hchain
        rw [← h, hchain]
      | succ n' => exact absurd (hmid 0 a (by omega) rfl) hcond

/-- A terminating classification walk started at `a` returns `None` when
the chain runs out of parent links before hitting `mb`. -/
theorem whileWalk_runs_out {ctp : SDict} {mb : List String} :
    ∀ {f : Nat} {a : String} {r : Option String},
      whileWalk ctp mb f (some a) = some r →
      ∀ {n : Nat} {y : String}, chainIter ctp n a = some y → alookup ctp y = none →
        (∀ j z, j ≤ n → chainIter ctp j a = some z → (z ≠ "" ∧ z ∉ mb)) →
        r = none := by
  intro f
  induction f with
  | zero => intro a r h; cases h
  | succ f ih =>
    intro a r h n y hchain hlast hmid
    have hcond : a ≠ "" ∧ a ∉ mb := hmid 0 a (by omega) rfl
    rw [whileWalk_succ_eq, if_pos hcond] at h
    cases n with
    | zero =>
      rw [chainIter_zero] at hchain
      injection hchain with hchain
      rw [← hchain] at hlast
      rw [hlast] at h
      exact whileWalk_of_none h
    | succ n' =>
      rw [chainIter_succ_eq] at hchain
      cases ha : alookup ctp a with
      | none => rw [ha] at hchain; cases hchain
      | some a1 =>
        rw [ha] at hchain h
        refine ih h hchain hlast ?_
        intro j z hj hcj
        refine hmid (j + 1) z (by omega) ?_
        rw [chainIter_succ_eq, ha]
        exact hcj

theorem classify_entry {ctp : SDict} {mb : List String} {fuel : Nat}
    {cp : String × String} {r : String × Option String}
    (h : (if cp.1 ∈ mb then some (cp.1, some cp.1)
        else
          match whileWalk ctp mb fuel (some cp.2) with
          | some rr => some (cp.1, rr)
          | none => none) = some r) :
    r.1 = cp.1 ∧ ((cp.1 ∈ mb ∧ r.2 = some cp.1) ∨
      (cp.1 ∉ mb ∧ whileWalk ctp mb fuel (some cp.2) = some r.2)) := by
  by_cases hmb : cp.1 ∈ mb
  · rw [if_pos hmb] at h
    injection h with h
    rw [← h]
    exact ⟨rfl, Or.inl ⟨hmb, rfl⟩⟩
  · rw [if_neg hmb] at h
    cases hw : whileWalk ctp mb fuel (some cp.2) with
    | none => rw [hw] at h; cases h
    | some rr =>
      rw [hw] at h
      injection h with h
      subst h
      refine ⟨rfl, Or.inr ⟨hmb, ?_⟩⟩
      simpa using hw

/-- C6: for every name `k` that is some parent's child (a key of the
inverted child→parent lookup built on line 161), the classifier of
`generate_major_branches_maps` records: `k` itself when `k` is a major
branch; otherwise the first member of MajorBranchSet reached by following
child→parent links from `k`; and nothing at all when the chain runs out
of parent links without meeting MajorBranchSet.  (Names are nonempty
strings, as all names produced by the loaders are.) -/
theorem classifier_ancestor_correct (ctp : SDict) (mb : List String) (fuel : Nat)
    (cmb : List (String × Option String))
    (hnd : NodupKeys ctp)
    (hne : ∀ e ∈ ctp, e.1 ≠ "" ∧ e.2 ≠ "")
    (hcl : classify_major_branches ctp mb fuel = some cmb) :
    (∀ k p, alookup ctp k = some p → k ∈ mb →
      alookup (filter_truthy cmb) k = some k)
    ∧ (∀ k p n b, alookup ctp k = some p → k ∉ mb →
        chainIter ctp n k = some b → b ∈ mb →
        (∀ j y, 0 < j → j < n → chainIter ctp j k = some y → y ∉ mb) →
        alookup (filter_truthy cmb) k = some b)
    ∧ (∀ k p n y, alookup ctp k = some p → k ∉ mb →
        chainIter ctp n k = some y → alookup ctp y = none →
        (∀ j z, j ≤ n → chainIter ctp j k = some z → z ∉ mb) →
        alookup (filter_truthy cmb) k = none) := by
  have hF0 := optMapList_some_forall₂ hcl
  have hF : List.Forall₂ (fun cp r => r.1 = cp.1 ∧
      ((cp.1 ∈ mb ∧ r.2 = some cp.1) ∨
        (cp.1 ∉ mb ∧ whileWalk ctp mb fuel (some cp.2) = some r.2))) ctp cmb :=
    hF0.imp (fun _ _ h => classify_entry h)
  have hndc : NodupKeys cmb := by
    have hkeq := forall₂_keys (fun cp r h => h.1) hF
    unfold NodupKeys
    rw [hkeq]
    exact hnd
  refine ⟨?_, ?_, ?_⟩
  · intro k p hkp hkmb
    obtain ⟨w, hw, hPw⟩ := @forall₂_alookup (fun c p w => (c ∈ mb ∧ w = some c) ∨ (c ∉ mb ∧ whileWalk ctp mb fuel (some p) = some w)) _ _ hF hnd _ _ hkp
    have hkne : k ≠ "" := (hne _ (alookup_mem hkp)).1
    rcases hPw with ⟨_, rfl⟩ | ⟨hnmb, _⟩
    · rw [alookup_filter_truthy hndc hw]
      simp [hkne]
    · exact absurd hkmb hnmb
  · intro k p n b hkp hkmb hchain hbmb hmid
    obtain ⟨w, hw, hPw⟩ := @forall₂_alookup (fun c p w => (c ∈ mb ∧ w = some c) ∨ (c ∉ mb ∧ whileWalk ctp mb fuel (some p) = some w)) _ _ hF hnd _ _ hkp
    have hkne : k ≠ "" := (hne _ (alookup_mem hkp)).1
    rcases hPw with ⟨hkin, _⟩ | ⟨_, hwres⟩
    · exact absurd hkin hkmb
    · cases n with
      | zero =>
        rw [chainIter_zero] at hchain
        injection hchain with hchain
        rw [hchain] at hkmb
        exact absurd hbmb hkmb
      | succ n' =>
        have hbne : b ≠ "" := chainIter_ne_empty hne (n' + 1) k b hkne hchain
        rw [chainIter_succ_eq, hkp] at hchain
        have hres : w = some b := by
          refine whileWalk_first_mb hwres hchain hbmb ?_
          intro j y hj hcj
          have hcjk : chainIter ctp (j + 1) k = some y := by
            rw [chainIter_succ_eq, hkp]
            exact hcj
          exact ⟨chainIter_ne_empty hne (j + 1) k y hkne hcjk,
            hmid (j + 1) y (by omega) (by omega) hcjk⟩
        subst hres
        rw [alookup_filter_truthy hndc hw]
        simp [hbne]
  · intro k p n y hkp hkmb hchain hlast hmid
    obtain ⟨w, hw, hPw⟩ := @forall₂_alookup (fun c p w => (c ∈ mb ∧ w = some c) ∨ (c ∉ mb ∧ whileWalk ctp mb fuel (some p) = some w)) _ _ hF hnd _ _ hkp
    have hkne : k ≠ "" := (hne _ (alookup_mem hkp)).1
    rcases hPw with ⟨hkin, _⟩ | ⟨_, hwres⟩
    · exact absurd hkin hkmb
    · cases n with
      | zero =>
        rw [chainIter_zero] at hchain
        injection hchain with hchain
        rw [← hchain] at hlast
        rw [hkp] at hlast
        cases hlast
      | succ n' =>
        rw [chainIter_succ_eq, hkp] at hchain
        have hres : w = none := by
          refine whileWalk_runs_out hwres hchain hlast ?_
          intro j z hj hcj
          have hcjk : chainIter ctp (j + 1) k = some z := by
            rw [chainIter_succ_eq, hkp]
            exact hcj
          exact ⟨chainIter_ne_empty hne (j + 1) k z hkne hcjk,
            hmid (j + 1) z (by omega) hcjk⟩
        subst hres
        rw [alookup_filter_truthy hndc hw]

/-- C6 witness: the three classifier cases on the concrete lookup
`{C: A, A: NT, Z: Q}` with MajorBranchSet `{A}`: the major branch `A`
maps to itself, `C` maps to the nearest major branch `A`, and `Z`
(whose chain runs out at `Q`) is absent from the result. -/
theorem classifier_ancestor_correct_witness :
    alookup (filter_truthy [("C", some "A"), ("A", some "A"), ("Z", none)]) "A" = some "A"
    ∧ alookup (filter_truthy [("C", some "A"), ("A", some "A"), ("Z", none)]) "C" = some "A"
    ∧ alookup (filter_truthy [("C", some "A"), ("A", some "A"), ("Z", none)]) "Z" = none := by
  have H := classifier_ancestor_correct [("C", "A"), ("A", "NT"), ("Z", "Q")] ["A"] 5
    [("C", some "A"), ("A", some "A"), ("Z", none)] (by decide) (by decide) rfl
  refine ⟨H.1 "A" "NT" rfl (by decide), ?_, ?_⟩
  · refine H.2.1 "C" "A" 1 "A" rfl (by decide) rfl (by decide) ?_
    intro j y h1 h2 _
    omega
  · refine H.2.2 "Z" "Q" 1 "Q" rfl (by decide) rfl rfl ?_
    intro j z hj hch
    rcases Nat.le_one_iff_eq_zero_or_eq_one.1 hj with rfl | rfl
    · rw [chainIter_zero] at hch
      injection hch with hch
      rw [← hch]
      decide
    · rw [show chainIter [("C", "A"), ("A", "NT"), ("Z", "Q")] 1 "Z" = some "Q" from rfl] at hch
      injection hch with hch
      rw [← hch]
      decide

/-! ### Claims C4, C5: dict and set lemmas for the surgeon pipeline -/

theorem mem_sadd {s : List String} {x y : String} :
    y ∈ sadd s x ↔ (y ∈ s ∨ y = x) := by
  unfold sadd
  by_cases hx : x ∈ s
  · rw [if_pos hx]
    constructor
    · exact Or.inl
    · rintro (h | rfl)
      · exact h
      · exact hx
  · rw [if_neg hx]
    simp

theorem sadd_nodup {s : List String} (h : s.Nodup) (x : String) : (sadd s x).Nodup := by
  unfold sadd
  by_cases hx : x ∈ s
  · rw [if_pos hx]; exact h
  · rw [if_neg hx]
    simp [List.nodup_append, h, hx]

theorem mem_sunion {s t : List String} {y : String} :
    y ∈ sunion s t ↔ (y ∈ s ∨ y ∈ t) := by
  unfold sunion
  induction t generalizing s with
  | nil => simp
  | cons a t ih =>
    rw [List.foldl_cons, ih]
    rw [mem_sadd]
    simp [or_assoc]

theorem sunion_nodup {s t : List String} (h : s.Nodup) : (sunion s t).Nodup := by
  unfold sunion
  induction t generalizing s with
  | nil => exact h
  | cons a t ih => exact ih (sadd_nodup h a)

theorem alookup_aset (d : SDict) (k k' v : String) :
    alookup (aset d k v) k' = if k = k' then some v else alookup d k' := by
  induction d with
  | nil => simp [aset, alookup]
  | cons e rest ih =>
    obtain ⟨ek, ev⟩ := e
    show alookup (if ek = k then (k, v) :: rest else (ek, ev) :: aset rest k v) k'
        = if k = k' then some v else alookup ((ek, ev) :: rest) k'
    by_cases hek : ek = k
    · subst hek
      rw [if_pos rfl]
      by_cases h2 : ek = k' <;> simp [alookup, h2]
    · rw [if_neg hek]
      by_cases h1 : ek = k'
      · have h2 : ¬ k = k' := fun hh => hek (h1.trans hh.symm)
        simp [alookup, h1, h2]
      · simp [alookup, h1, ih]

theorem keys_aset (d : SDict) (k v : String) :
    (aset d k v).map Prod.fst = if k ∈ d.map Prod.fst then d.map Prod.fst
      else d.map Prod.fst ++ [k] := by
  induction d with
  | nil => simp [aset]
  | cons e rest ih =>
    obtain ⟨ek, ev⟩ := e
    show (if ek = k then (k, v) :: rest else (ek, ev) :: aset rest k v).map Prod.fst = _
    by_cases hek : ek = k
    · subst hek
      simp
    · rw [if_neg hek]
      simp only [List.map_cons, List.mem_cons, ih]
      by_cases hk : k ∈ rest.map Prod.fst
      · rw [if_pos hk, if_pos (Or.inr hk)]
      · have hne : ¬ (k = ek ∨ k ∈ rest.map Prod.fst) := by
          rintro (h | h)
          · exact hek h.symm
          · exact hk h
        rw [if_neg hk, if_neg hne]
        simp

theorem nodupKeys_aset {d : SDict} (h : NodupKeys d) (k v : String) :
    NodupKeys (aset d k v) := by
  unfold NodupKeys at h ⊢
  rw [keys_aset]
  by_cases hk : k ∈ d.map Prod.fst
  · rw [if_pos hk]; exact h
  · rw [if_neg hk]
    simp [List.nodup_append, h, hk]

theorem alookup_foldl_aset (cs : List String) :
    ∀ (acc : SDict) (k x : String),
      alookup (cs.foldl (fun a c => aset a c k) acc) x =
        if x ∈ cs then some k else alookup acc x := by
  induction cs with
  | nil => intro acc k x; simp
  | cons c cs' ih =>
    intro acc k x
    rw [List.foldl_cons, ih]
    by_cases h1 : x ∈ cs'
    · simp [h1]
    · rw [if_neg h1, alookup_aset]
      by_cases h2 : c = x
      · simp [h2]
      · have hne : x ∉ c :: cs' := by
          intro hx
          rcases List.mem_cons.1 hx with rfl | hx
          · exact h2 rfl
          · exact h1 hx
        rw [if_neg h2, if_neg hne]

theorem nodupKeys_foldl_aset (cs : List String) :
    ∀ {acc : SDict}, NodupKeys acc → ∀ (k : String),
      NodupKeys (cs.foldl (fun a c => aset a c k) acc) := by
  induction cs with
  | nil => intro acc h k; exact h
  | cons c cs' ih => intro acc h k; exact ih (nodupKeys_aset h c k) k

theorem alookup_of_mem_nodup {l : SDict} (h : NodupKeys l) {k v : String}
    (hm : (k, v) ∈ l) : alookup l k = some v := by
  induction l with
  | nil => cases hm
  | cons e rest ih =>
    obtain ⟨ek, ev⟩ := e
    simp only [NodupKeys, List.map_cons, List.nodup_cons] at h
    rcases List.mem_cons.1 hm with he | hm'
    · injection he with h1 h2
      subst h1
      subst h2
      simp [alookup]
    · have hek : ¬ ek = k := by
        intro hh
        subst hh
        exact h.1 (List.mem_map.2 ⟨(ek, v), hm', rfl⟩)
      simp only [alookup, if_neg hek]
      exact ih h.2 hm'

theorem dget_of_entry_nodup {d : Dict} (h : NodupKeys d) {k : String} {v : List String}
    (hm : (k, v) ∈ d) : dget d k = some v := by
  induction d with
  | nil => cases hm
  | cons e rest ih =>
    obtain ⟨ek, ev⟩ := e
    simp only [NodupKeys, List.map_cons, List.nodup_cons] at h
    rcases List.mem_cons.1 hm with he | hm'
    · injection he with h1 h2
      subst h1
      subst h2
      simp [dget]
    · have hek : ¬ ek = k := by
        intro hh
        subst hh
        exact h.1 (List.mem_map.2 ⟨(ek, v), hm', rfl⟩)
      simp only [dget, if_neg hek]
      exact ih h.2 hm'

theorem mem_dset {d : Dict} {k : String} {v : List String} {e : String × List String}
    (h : e ∈ dset d k v) : e = (k, v) ∨ e ∈ d := by
  induction d with
  | nil => simpa [dset] using h
  | cons e0 rest ih =>
    obtain ⟨ek, ev⟩ := e0
    rw [show dset ((ek, ev) :: rest) k v
      = if ek = k then (k, v) :: rest else (ek, ev) :: dset rest k v from rfl] at h
    by_cases hek : ek = k
    · rw [if_pos hek] at h
      rcases List.mem_cons.1 h with rfl | h
      · exact Or.inl rfl
      · exact Or.inr (List.mem_cons_of_mem _ h)
    · rw [if_neg hek] at h
      rcases List.mem_cons.1 h with rfl | h
      · exact Or.inr (List.mem_cons_self _ _)
      · rcases ih h with h | h
        · exact Or.inl h
        · exact Or.inr (List.mem_cons_of_mem _ h)

theorem dset_dset (d : Dict) (k : String) (v v' : List String) :
    dset (dset d k v) k v' = dset d k v' := by
  induction d with
  | nil => simp [dset]
  | cons e rest ih =>
    obtain ⟨ek, ev⟩ := e
    by_cases hek : ek = k
    · subst hek
      simp [dset]
    · simp [dset, hek, ih]

theorem keys_dset (d : Dict) (k : String) (v : List String) :
    (dset d k v).map Prod.fst = if k ∈ d.map Prod.fst then d.map Prod.fst
      else d.map Prod.fst ++ [k] := by
  induction d with
  | nil => simp [dset]
  | cons e rest ih =>
    obtain ⟨ek, ev⟩ := e
    show (if ek = k then (k, v) :: rest else (ek, ev) :: dset rest k v).map Prod.fst = _
    by_cases hek : ek = k
    · subst hek
      simp
    · rw [if_neg hek]
      simp only [List.map_cons, List.mem_cons, ih]
      by_cases hk : k ∈ rest.map Prod.fst
      · rw [if_pos hk, if_pos (Or.inr hk)]
      · have hne : ¬ (k = ek ∨ k ∈ rest.map Prod.fst) := by
          rintro (h | h)
          · exact hek h.symm
          · exact hk h
        rw [if_neg hk, if_neg hne]
        simp

theorem nodupKeys_dset {d : Dict} (h : NodupKeys d) (k : String) (v : List String) :
    NodupKeys (dset d k v) := by
  unfold NodupKeys at h ⊢
  rw [keys_dset]
  by_cases hk : k ∈ d.map Prod.fst
  · rw [if_pos hk]; exact h
  · rw [if_neg hk]
    simp [List.nodup_append, h, hk]

theorem dget_ddel {d : Dict} (h : NodupKeys d) (k k' : String) :
    dget (ddel d k) k' = if k' = k then none else dget d k' := by
  induction d with
  | nil => simp [ddel, dget]
  | cons e rest ih =>
    obtain ⟨ek, ev⟩ := e
    simp only [NodupKeys, List.map_cons, List.nodup_cons] at h
    show dget (if ek = k then rest else (ek, ev) :: ddel rest k) k' = _
    by_cases hek : ek = k
    · rw [if_pos hek]
      by_cases h2 : k' = k
      · rw [if_pos h2]
        cases hd : dget rest k' with
        | none => rfl
        | some v =>
          exfalso
          apply h.1
          rw [hek, ← h2]
          exact List.mem_map.2 ⟨(k', v), dget_mem hd, rfl⟩
      · rw [if_neg h2]
        show dget rest k' = dget ((ek, ev) :: rest) k'
        rw [show dget ((ek, ev) :: rest) k' = if ek = k' then some ev else dget rest k' from rfl,
          if_neg (fun hh : ek = k' => h2 (hh.symm.trans hek))]
    · rw [if_neg hek]
      show (if ek = k' then some ev else dget (ddel rest k) k') = _
      by_cases h1 : ek = k'
      · rw [if_pos h1]
        have h2 : ¬ k' = k := fun hh => hek (h1.trans hh)
        rw [if_neg h2,
          show dget ((ek, ev) :: rest) k' = if ek = k' then some ev else dget rest k' from rfl,
          if_pos h1]
      · rw [if_neg h1, ih h.2]
        by_cases h2 : k' = k
        · rw [if_pos h2, if_pos h2]
        · rw [if_neg h2, if_neg h2,
            show dget ((ek, ev) :: rest) k' = if ek = k' then some ev else dget rest k' from rfl,
            if_neg h1]

theorem ddel_sub {d : Dict} {k : String} {e : String × List String}
    (h : e ∈ ddel d k) : e ∈ d := by
  induction d with
  | nil => cases h
  | cons e0 rest ih =>
    obtain ⟨ek, ev⟩ := e0
    rw [show ddel ((ek, ev) :: rest) k
      = if ek = k then rest else (ek, ev) :: ddel rest k from rfl] at h
    by_cases hek : ek = k
    · rw [if_pos hek] at h
      exact List.mem_cons_of_mem _ h
    · rw [if_neg hek] at h
      rcases List.mem_cons.1 h with rfl | h
      · exact List.mem_cons_self _ _
      · exact List.mem_cons_of_mem _ (ih h)

theorem dget_none_not_mem_keys {d : Dict} {k : String} (h : dget d k = none) :
    k ∉ d.map Prod.fst := by
  induction d with
  | nil => simp
  | cons e rest ih =>
    obtain ⟨ek, ev⟩ := e
    rw [show dget ((ek, ev) :: rest) k = if ek = k then some ev else dget rest k from rfl] at h
    by_cases hek : ek = k
    · rw [if_pos hek] at h
      cases h
    · rw [if_neg hek] at h
      simp only [List.map_cons, List.mem_cons]
      rintro (hh | hh)
      · exact hek hh.symm
      · exact ih h hh

theorem mem_dgetD_dAddToSet_iff (d : Dict) (k x k' y : String) :
    y ∈ dgetD (dAddToSet d k x) k' ↔ (y ∈ dgetD d k' ∨ (k' = k ∧ y = x)) := by
  unfold dAddToSet
  cases hv : dget d k with
  | some v =>
    by_cases h : k = k'
    · subst h
      rw [show dgetD (dset d k (sadd v x)) k = (dget (dset d k (sadd v x)) k).getD [] from rfl,
        dget_dset, if_pos rfl, show (some (sadd v x)).getD [] = sadd v x from rfl,
        show dgetD d k = (dget d k).getD [] from rfl, hv,
        show (some v).getD [] = v from rfl, mem_sadd]
      constructor
      · rintro (h1 | h1)
        · exact Or.inl h1
        · exact Or.inr ⟨rfl, h1⟩
      · rintro (h1 | ⟨_, h1⟩)
        · exact Or.inl h1
        · exact Or.inr h1
    · have h' : k' ≠ k := fun hh => h hh.symm
      simp only [dgetD, dget_dset, if_neg h]
      simp [h']
  | none =>
    simp only [dgetD, dget_append]
    by_cases h : k = k'
    · subst h
      rw [hv]
      simp [dget, mem_sadd]
    · have h' : k' ≠ k := fun hh => h hh.symm
      cases hd : dget d k' with
      | some v => simp [hd, dget, h, h']
      | none => simp [hd, dget, h, h']

theorem mem_dgetD_groupfold : ∀ (l : SDict) (acc : Dict) (k y : String),
    y ∈ dgetD (l.foldl (fun a cp => dAddToSet a cp.2 cp.1) acc) k
      ↔ (y ∈ dgetD acc k ∨ (y, k) ∈ l) := by
  intro l
  induction l with
  | nil => intro acc k y; simp
  | cons e rest ih =>
    intro acc k y
    rw [List.foldl_cons, ih, mem_dgetD_dAddToSet_iff]
    constructor
    · rintro ((h | ⟨h1, h2⟩) | h)
      · exact Or.inl h
      · exact Or.inr (List.mem_cons.2 (Or.inl (Prod.ext_iff.2 ⟨h2, h1⟩)))
      · exact Or.inr (List.mem_cons_of_mem _ h)
    · rintro (h | h)
      · exact Or.inl (Or.inl h)
      · rcases List.mem_cons.1 h with he | h
        · rw [Prod.ext_iff] at he
          exact Or.inl (Or.inr ⟨he.2, he.1⟩)
        · exact Or.inr h

theorem dget_isSome_of_mem {d : Dict} {k y : String} (h : y ∈ dgetD d k) :
    ∃ v, dget d k = some v := by
  cases hd : dget d k with
  | none =>
    rw [dgetD, hd] at h
    cases h
  | some v => exact ⟨v, rfl⟩

theorem nodupKeys_dAddToSet {d : Dict} (h : NodupKeys d) (k x : String) :
    NodupKeys (dAddToSet d k x) := by
  unfold dAddToSet
  cases hv : dget d k with
  | some v => exact nodupKeys_dset h k (sadd v x)
  | none =>
    unfold NodupKeys at h ⊢
    rw [List.map_append]
    simp [List.nodup_append, h, dget_none_not_mem_keys hv]

theorem nodupKeys_groupfold : ∀ (l : SDict) {acc : Dict}, NodupKeys acc →
    NodupKeys (l.foldl (fun a cp => dAddToSet a cp.2 cp.1) acc) := by
  intro l
  induction l with
  | nil => intro acc h; exact h
  | cons e rest ih => intro acc h; exact ih (nodupKeys_dAddToSet h e.2 e.1)

theorem nodupVals_dset {d : Dict} (h : NodupVals d) {v : List String} (hv : v.Nodup)
    (k : String) : NodupVals (dset d k v) := by
  intro e he
  rcases mem_dset he with rfl | he
  · exact hv
  · exact h e he

theorem nodupVals_dAddToSet {d : Dict} (h : NodupVals d) (k x : String) :
    NodupVals (dAddToSet d k x) := by
  unfold dAddToSet
  cases hv : dget d k with
  | some v => exact nodupVals_dset h (sadd_nodup (h _ (dget_mem hv)) x) k
  | none =>
    intro e he
    rcases List.mem_append.1 he with he | he
    · exact h e he
    · rcases List.mem_cons.1 he with rfl | he
      · simp [sadd]
      · cases he

theorem nodupVals_groupfold : ∀ (l : SDict) {acc : Dict}, NodupVals acc →
    NodupVals (l.foldl (fun a cp => dAddToSet a cp.2 cp.1) acc) := by
  intro l
  induction l with
  | nil => intro acc h; exact h
  | cons e rest ih => intro acc h; exact ih (nodupVals_dAddToSet h e.2 e.1)

theorem nodupVals_ddel {d : Dict} (h : NodupVals d) (k : String) :
    NodupVals (ddel d k) :=
  fun e he => h e (ddel_sub he)

/-! Characterization of `build_child_to_parent` on maps satisfying the
HierarchyMap invariants. -/

theorem buildctp_lookup_inv_aux :
    ∀ (l : Dict) (acc : SDict) (x p : String),
      alookup (l.foldl (fun a pc => pc.2.foldl (fun a2 c => aset a2 c pc.1) a) acc) x = some p →
      (∃ e ∈ l, e.1 = p ∧ x ∈ e.2) ∨ alookup acc x = some p := by
  intro l
  induction l with
  | nil => intro acc x p h; exact Or.inr h
  | cons e rest ih =>
    intro acc x p h
    rw [List.foldl_cons] at h
    rcases ih _ x p h with ⟨e', he', h1, h2⟩ | h
    · exact Or.inl ⟨e', List.mem_cons_of_mem _ he', h1, h2⟩
    · rw [alookup_foldl_aset] at h
      by_cases hx : x ∈ e.2
      · rw [if_pos hx] at h
        injection h with h
        exact Or.inl ⟨e, List.mem_cons_self _ _, h, hx⟩
      · rw [if_neg hx] at h
        exact Or.inr h

theorem buildctp_lookup_eq_aux :
    ∀ (l : Dict) (acc : SDict) (x p : String),
      (∀ e ∈ l, x ∈ e.2 → e.1 = p) →
      (alookup acc x = some p ∨ ∃ e ∈ l, x ∈ e.2) →
      alookup (l.foldl (fun a pc => pc.2.foldl (fun a2 c => aset a2 c pc.1) a) acc) x = some p := by
  intro l
  induction l with
  | nil =>
    intro acc x p _ hd
    rcases hd with h | ⟨e, he, _⟩
    · exact h
    · cases he
  | cons e rest ih =>
    intro acc x p hkey hd
    rw [List.foldl_cons]
    refine ih _ x p (fun e' he' => hkey e' (List.mem_cons_of_mem _ he')) ?_
    rcases hd with h | ⟨e', he', hx⟩
    · left
      rw [alookup_foldl_aset]
      by_cases hx : x ∈ e.2
      · rw [if_pos hx, hkey e (List.mem_cons_self _ _) hx]
      · rw [if_neg hx]
        exact h
    · rcases List.mem_cons.1 he' with rfl | he'
      · left
        rw [alookup_foldl_aset, if_pos hx, hkey e' (List.mem_cons_self _ _) hx]
      · exact Or.inr ⟨e', he', hx⟩

theorem alookup_buildctp_eq {M : Dict} (hop : OneParent M) {x p : String}
    (hmem : x ∈ dgetD M p) : alookup (build_child_to_parent M) x = some p := by
  obtain ⟨vp, hvp⟩ := dget_isSome_of_mem hmem
  have hxvp : x ∈ vp := by
    rw [dgetD, hvp] at hmem
    exact hmem
  refine buildctp_lookup_eq_aux M [] x p ?_ (Or.inr ⟨(p, vp), dget_mem hvp, hxvp⟩)
  intro e he hx
  exact hop e he (p, vp) (dget_mem hvp) x hx hxvp

theorem alookup_buildctp_inv {M : Dict} (hk : NodupKeys M) {x p : String}
    (h : alookup (build_child_to_parent M) x = some p) : x ∈ dgetD M p := by
  rcases buildctp_lookup_inv_aux M [] x p h with ⟨e, he, h1, h2⟩ | h
  · obtain ⟨ek, ev⟩ := e
    rw [show (ek, ev).1 = ek from rfl] at h1
    subst h1
    rw [dgetD, dget_of_entry_nodup hk he]
    exact h2
  · cases h

theorem nodupKeys_buildctp (M : Dict) : NodupKeys (build_child_to_parent M) := by
  show NodupKeys (M.foldl (fun a pc => pc.2.foldl (fun a2 c => aset a2 c pc.1) a) [])
  generalize hacc : ([] : SDict) = acc
  have hnd : NodupKeys acc := by rw [← hacc]; exact List.nodup_nil
  clear hacc
  induction M generalizing acc with
  | nil => exact hnd
  | cons e rest ih => exact ih _ (nodupKeys_foldl_aset e.2 hnd e.1)

theorem dget_dAddToSet_self (d : Dict) (k x : String) :
    dget (dAddToSet d k x) k = some (sadd (dgetD d k) x) := by
  unfold dAddToSet
  cases hv : dget d k with
  | some v =>
    rw [dget_dset, if_pos rfl, dgetD, hv]
    rfl
  | none =>
    rw [dget_append, hv, dgetD, hv]
    simp [dget]

theorem dget_dAddToSet_ne {d : Dict} {k k' : String} (h : ¬ k' = k) (x : String) :
    dget (dAddToSet d k x) k' = dget d k' := by
  unfold dAddToSet
  cases hv : dget d k with
  | some v => rw [dget_dset, if_neg (fun hh : k = k' => h hh.symm)]
  | none =>
    rw [dget_append]
    cases hd : dget d k' with
    | some v => rfl
    | none =>
      simp only [dget]
      rw [if_neg (fun hh : k = k' => h hh.symm)]

theorem keys_ddel_sublist (d : Dict) (k : String) :
    ((ddel d k).map Prod.fst).Sublist (d.map Prod.fst) := by
  induction d with
  | nil => simp [ddel]
  | cons e rest ih =>
    obtain ⟨ek, ev⟩ := e
    rw [show ddel ((ek, ev) :: rest) k
      = if ek = k then rest else (ek, ev) :: ddel rest k from rfl]
    by_cases hek : ek = k
    · rw [if_pos hek]
      simp only [List.map_cons]
      exact (List.sublist_cons_self _ _).trans (List.Sublist.refl _)
    · rw [if_neg hek]
      simp only [List.map_cons]
      exact ih.cons₂ ek

theorem nodupKeys_ddel {d : Dict} (h : NodupKeys d) (k : String) :
    NodupKeys (ddel d k) :=
  (keys_ddel_sublist d k).nodup h

theorem oneParent_dgetD {M : Dict} (hop : OneParent M) {x a b : String}
    (ha : x ∈ dgetD M a) (hb : x ∈ dgetD M b) : a = b := by
  obtain ⟨va, hva⟩ := dget_isSome_of_mem ha
  obtain ⟨vb, hvb⟩ := dget_isSome_of_mem hb
  rw [dgetD, hva] at ha
  rw [dgetD, hvb] at hb
  exact hop (a, va) (dget_mem hva) (b, vb) (dget_mem hvb) x ha hb

/-- The revision step of `load_category_er_tree_data` (lines 121-134),
fully evaluated on the defaultdict case. -/
def er_ctp2 (M : Dict) : SDict :=
  ((dgetD M "BiologicalEntity").filter (fun x => decide (x ∉ sub_branches_to_keep))).foldl
    (fun acc x => aset acc x "GeneticOrMolecularBiologicalEntity") (build_child_to_parent M)

def er_revised (M : Dict) : Dict :=
  dAddToSet ((er_ctp2 M).foldl (fun acc cp => dAddToSet acc cp.2 cp.1) [])
    "BiologicalEntity" "GeneticOrMolecularBiologicalEntity"

theorem load_category_er_map_ok {m0 : PyDict} (hdef : m0.isDefault = true) :
    load_category_er_map m0 = .ok ⟨er_revised m0.entries, true⟩ := by
  unfold load_category_er_map er_revised er_ctp2
  cases hd : dget m0.entries "BiologicalEntity" with
  | some v =>
    have hidx : m0.index "BiologicalEntity" = .ok (v, m0) := by
      unfold PyDict.index
      rw [hd]
    rw [hidx]
    rw [show dgetD m0.entries "BiologicalEntity" = v from by rw [dgetD, hd]; rfl]
  | none =>
    have hidx : m0.index "BiologicalEntity"
        = .ok ([], ⟨m0.entries ++ [("BiologicalEntity", [])], m0.isDefault⟩) := by
      unfold PyDict.index
      rw [hd, hdef]
      rfl
    rw [hidx]
    rw [show dgetD m0.entries "BiologicalEntity" = [] from by rw [dgetD, hd]; rfl]

theorem er_lift_ok {m : PyDict} {ntCh beCh : List String}
    (hNT : dget m.entries "NamedThing" = some ntCh)
    (hBE : dget m.entries "BiologicalEntity" = some beCh)
    (hmem : "BiologicalEntity" ∈ sunion ntCh beCh) :
    er_lift m = .ok ⟨ddel (dset m.entries "NamedThing"
        ((sunion ntCh beCh).filter (fun y => y ≠ "BiologicalEntity"))) "BiologicalEntity",
      m.isDefault⟩ := by
  unfold er_lift
  have hidx1 : m.index "NamedThing" = .ok (ntCh, m) := by
    unfold PyDict.index
    rw [hNT]
  rw [hidx1]
  dsimp only
  have hidx2 : m.index "BiologicalEntity" = .ok (beCh, m) := by
    unfold PyDict.index
    rw [hBE]
  rw [hidx2]
  dsimp only
  have hgetu : dgetD (dset m.entries "NamedThing" (sunion ntCh beCh)) "NamedThing"
      = sunion ntCh beCh := by
    rw [dgetD, dget_dset, if_pos rfl]
    rfl
  rw [hgetu]
  rw [show sremove (sunion ntCh beCh) "BiologicalEntity"
    = some ((sunion ntCh beCh).filter (fun y => y ≠ "BiologicalEntity")) from by
      unfold sremove
      rw [if_pos hmem]]
  dsimp only
  rw [dset_dset]
  have hBE4 : dget (dset m.entries "NamedThing"
      ((sunion ntCh beCh).filter (fun y => y ≠ "BiologicalEntity"))) "BiologicalEntity"
      = some beCh := by
    rw [dget_dset, if_neg (by decide)]
    exact hBE
  rw [hBE4]

/-- Full characterisation of the surgeon pipeline (lines 121-134 revision then
lines 152-157 lift) on a map satisfying the HierarchyMap invariants, where the
dissolved branch is a child of the hard-coded root and the placeholder name is
fresh. -/
theorem surgeon_core {M : Dict} (hk : NodupKeys M) (hop : OneParent M)
    (hv : NodupVals M)
    (hBEp : "BiologicalEntity" ∈ dgetD M "NamedThing")
    (hfresh : ∀ e ∈ M, "GeneticOrMolecularBiologicalEntity" ∉ e.2) :
    ∃ F : Dict,
      er_lift ⟨er_revised M, true⟩ = .ok ⟨F, true⟩
      ∧ dget F "BiologicalEntity" = none
      ∧ (∀ e ∈ F, "BiologicalEntity" ∉ e.2)
      ∧ "GeneticOrMolecularBiologicalEntity" ∈ dgetD F "NamedThing"
      ∧ (∀ x ∈ dgetD M "BiologicalEntity",
          x ∈ dgetD F (if x ∈ sub_branches_to_keep then "NamedThing"
            else "GeneticOrMolecularBiologicalEntity"))
      ∧ (∀ x ∈ dgetD M "BiologicalEntity", ∀ e ∈ F, x ∈ e.2 →
          e.1 = if x ∈ sub_branches_to_keep then "NamedThing"
            else "GeneticOrMolecularBiologicalEntity")
      ∧ NodupVals F := by
  have hndc : NodupKeys (er_ctp2 M) := by
    unfold er_ctp2
    exact nodupKeys_foldl_aset _ (nodupKeys_buildctp _) _
  have hrev : ∀ y k,
      y ∈ dgetD ((er_ctp2 M).foldl (fun acc cp => dAddToSet acc cp.2 cp.1) []) k
        ↔ alookup (er_ctp2 M) y = some k := by
    intro y k
    rw [mem_dgetD_groupfold]
    constructor
    · rintro (h | h)
      · rw [show dgetD ([] : Dict) k = [] from rfl] at h
        cases h
      · exact alookup_of_mem_nodup hndc h
    · intro h
      exact Or.inr (alookup_mem h)
  have hctp2 : ∀ x, alookup (er_ctp2 M) x
      = if x ∈ (dgetD M "BiologicalEntity").filter
            (fun y => decide (y ∉ sub_branches_to_keep))
        then some "GeneticOrMolecularBiologicalEntity"
        else alookup (build_child_to_parent M) x := by
    intro x
    unfold er_ctp2
    exact alookup_foldl_aset _ _ _ x
  have hBEC : "BiologicalEntity" ∉ dgetD M "BiologicalEntity" := fun hmem =>
    absurd (oneParent_dgetD hop hmem hBEp) (by decide)
  have hGC : "GeneticOrMolecularBiologicalEntity" ∉ dgetD M "BiologicalEntity" := by
    intro hmem
    obtain ⟨v, hvv⟩ := dget_isSome_of_mem hmem
    have hmv : "GeneticOrMolecularBiologicalEntity" ∈ v := by
      rw [dgetD, hvv] at hmem
      exact hmem
    exact hfresh _ (dget_mem hvv) hmv
  have hctpBE : alookup (er_ctp2 M) "BiologicalEntity" = some "NamedThing" := by
    rw [hctp2, if_neg (fun hmem => hBEC (List.mem_of_mem_filter hmem))]
    exact alookup_buildctp_eq hop hBEp
  have hR2 : ∀ y k, y ∈ dgetD (er_revised M) k
      ↔ (alookup (er_ctp2 M) y = some k
          ∨ (k = "BiologicalEntity" ∧ y = "GeneticOrMolecularBiologicalEntity")) := by
    intro y k
    unfold er_revised
    rw [mem_dgetD_dAddToSet_iff, hrev]
  have hBEr2 : "BiologicalEntity" ∈ dgetD (er_revised M) "NamedThing" :=
    (hR2 _ _).2 (Or.inl hctpBE)
  obtain ⟨vnt, hvnt⟩ := dget_isSome_of_mem hBEr2
  have hBEvnt : "BiologicalEntity" ∈ vnt := by
    rw [dgetD, hvnt, Option.getD_some] at hBEr2
    exact hBEr2
  have hR2BE : dget (er_revised M) "BiologicalEntity"
      = some (sadd (dgetD ((er_ctp2 M).foldl (fun acc cp => dAddToSet acc cp.2 cp.1) [])
          "BiologicalEntity") "GeneticOrMolecularBiologicalEntity") := by
    unfold er_revised
    exact dget_dAddToSet_self _ _ _
  obtain ⟨vbe, hvbe⟩ : ∃ v, dget (er_revised M) "BiologicalEntity" = some v := ⟨_, hR2BE⟩
  have hlift := @er_lift_ok ⟨er_revised M, true⟩ vnt vbe hvnt hvbe
    (mem_sunion.2 (Or.inl hBEvnt))
  have hndR2 : NodupKeys (er_revised M) := by
    unfold er_revised
    exact nodupKeys_dAddToSet
      (nodupKeys_groupfold _ (show NodupKeys ([] : Dict) from List.nodup_nil)) _ _
  have hndF1 : NodupKeys (dset (er_revised M) "NamedThing"
      ((sunion vnt vbe).filter (fun y => y ≠ "BiologicalEntity"))) :=
    nodupKeys_dset hndR2 _ _
  have hndF : NodupKeys (ddel (dset (er_revised M) "NamedThing"
      ((sunion vnt vbe).filter (fun y => y ≠ "BiologicalEntity"))) "BiologicalEntity") :=
    nodupKeys_ddel hndF1 _
  have hdgF : ∀ k, dget (ddel (dset (er_revised M) "NamedThing"
        ((sunion vnt vbe).filter (fun y => y ≠ "BiologicalEntity"))) "BiologicalEntity") k
      = if k = "BiologicalEntity" then none
        else if "NamedThing" = k
          then some ((sunion vnt vbe).filter (fun y => y ≠ "BiologicalEntity"))
          else dget (er_revised M) k := by
    intro k
    rw [dget_ddel hndF1, dget_dset]
  refine ⟨_, hlift, ?_, ?_, ?_, ?_, ?_, ?_⟩
  · rw [hdgF, if_pos rfl]
  · intro e he hmem
    obtain ⟨ek, ev⟩ := e
    have hdg := dget_of_entry_nodup hndF he
    rw [hdgF ek] at hdg
    by_cases h1 : ek = "BiologicalEntity"
    · rw [if_pos h1] at hdg
      cases hdg
    · rw [if_neg h1] at hdg
      by_cases h2 : "NamedThing" = ek
      · rw [if_pos h2] at hdg
        injection hdg with hdg
        rw [← hdg] at hmem
        have hp := List.of_mem_filter hmem
        simp at hp
      · rw [if_neg h2] at hdg
        have hBEe : "BiologicalEntity" ∈ dgetD (er_revised M) ek := by
          rw [dgetD, hdg, Option.getD_some]
          exact hmem
        rcases (hR2 _ _).1 hBEe with hl | hr
        · rw [hctpBE] at hl
          injection hl with hl
          exact h2 hl
        · exact h1 hr.1
  · have hNTF : dget (ddel (dset (er_revised M) "NamedThing"
        ((sunion vnt vbe).filter (fun y => y ≠ "BiologicalEntity"))) "BiologicalEntity")
        "NamedThing" = some ((sunion vnt vbe).filter (fun y => y ≠ "BiologicalEntity")) := by
      rw [hdgF, if_neg (by decide), if_pos rfl]
    rw [dgetD, hNTF, Option.getD_some]
    refine List.mem_filter.2 ⟨mem_sunion.2 (Or.inr ?_), by decide⟩
    have hGbe : "GeneticOrMolecularBiologicalEntity"
        ∈ dgetD (er_revised M) "BiologicalEntity" :=
      (hR2 _ _).2 (Or.inr ⟨rfl, rfl⟩)
    rw [dgetD, hvbe, Option.getD_some] at hGbe
    exact hGbe
  · intro x hxC
    have hxBE : x ≠ "BiologicalEntity" := fun h => hBEC (h ▸ hxC)
    by_cases hkeep : x ∈ sub_branches_to_keep
    · rw [if_pos hkeep]
      have hnmv : x ∉ (dgetD M "BiologicalEntity").filter
          (fun y => decide (y ∉ sub_branches_to_keep)) := by
        intro hmem
        exact of_decide_eq_true (List.mem_filter.1 hmem).2 hkeep
      have hxbe : x ∈ dgetD (er_revised M) "BiologicalEntity" := by
        refine (hR2 _ _).2 (Or.inl ?_)
        rw [hctp2, if_neg hnmv]
        exact alookup_buildctp_eq hop hxC
      rw [dgetD, hvbe, Option.getD_some] at hxbe
      rw [dgetD, hdgF, if_neg (by decide), if_pos rfl, Option.getD_some]
      exact List.mem_filter.2 ⟨mem_sunion.2 (Or.inr hxbe), decide_eq_true hxBE⟩
    · rw [if_neg hkeep]
      have hmove : x ∈ (dgetD M "BiologicalEntity").filter
          (fun y => decide (y ∉ sub_branches_to_keep)) :=
        List.mem_filter.2 ⟨hxC, decide_eq_true hkeep⟩
      have hxg : x ∈ dgetD (er_revised M) "GeneticOrMolecularBiologicalEntity" := by
        refine (hR2 _ _).2 (Or.inl ?_)
        rw [hctp2, if_pos hmove]
      rw [dgetD, hdgF, if_neg (by decide), if_neg (by decide)]
      exact hxg
  · intro x hxC e he hmem
    obtain ⟨ek, ev⟩ := e
    have hdg := dget_of_entry_nodup hndF he
    rw [hdgF ek] at hdg
    have hxBE : x ≠ "BiologicalEntity" := fun h => hBEC (h ▸ hxC)
    have hxG : x ≠ "GeneticOrMolecularBiologicalEntity" := fun h => hGC (h ▸ hxC)
    by_cases h1 : ek = "BiologicalEntity"
    · rw [if_pos h1] at hdg
      cases hdg
    · rw [if_neg h1] at hdg
      by_cases h2 : "NamedThing" = ek
      · rw [if_pos h2] at hdg
        injection hdg with hdg
        rw [← hdg] at hmem
        have hmem' := List.mem_of_mem_filter hmem
        rcases mem_sunion.1 hmem' with hnt | hbe
        · have hx : x ∈ dgetD (er_revised M) "NamedThing" := by
            rw [dgetD, hvnt, Option.getD_some]
            exact hnt
          rcases (hR2 _ _).1 hx with hl | hr
          · rw [hctp2] at hl
            by_cases hmv : x ∈ (dgetD M "BiologicalEntity").filter
                (fun y => decide (y ∉ sub_branches_to_keep))
            · rw [if_pos hmv] at hl
              injection hl with hl
              exact absurd hl (by decide)
            · rw [if_neg hmv] at hl
              have hxNT : x ∈ dgetD M "NamedThing" := alookup_buildctp_inv hk hl
              exact absurd (oneParent_dgetD hop hxNT hxC) (by decide)
          · exact absurd hr.1 (by decide)
        · have hx : x ∈ dgetD (er_revised M) "BiologicalEntity" := by
            rw [dgetD, hvbe, Option.getD_some]
            exact hbe
          rcases (hR2 _ _).1 hx with hl | hr
          · rw [hctp2] at hl
            by_cases hmv : x ∈ (dgetD M "BiologicalEntity").filter
                (fun y => decide (y ∉ sub_branches_to_keep))
            · rw [if_pos hmv] at hl
              injection hl with hl
              exact absurd hl (by decide)
            · rw [if_neg hmv] at hl
              have hkeep : x ∈ sub_branches_to_keep := by
                by_contra hnk
                exact hmv (List.mem_filter.2 ⟨hxC, decide_eq_true hnk⟩)
              rw [if_pos hkeep]
              exact h2.symm
          · exact absurd hr.2 hxG
      · rw [if_neg h2] at hdg
        have hx : x ∈ dgetD (er_revised M) ek := by
          rw [dgetD, hdg, Option.getD_some]
          exact hmem
        rcases (hR2 _ _).1 hx with hl | hr
        · rw [hctp2] at hl
          by_cases hmv : x ∈ (dgetD M "BiologicalEntity").filter
              (fun y => decide (y ∉ sub_branches_to_keep))
          · rw [if_pos hmv] at hl
            injection hl with hl
            have hnk : x ∉ sub_branches_to_keep :=
              of_decide_eq_true (List.mem_filter.1 hmv).2
            rw [if_neg hnk]
            exact hl.symm
          · rw [if_neg hmv] at hl
            have hxek : x ∈ dgetD M ek := alookup_buildctp_inv hk hl
            exact absurd (oneParent_dgetD hop hxek hxC) h1
        · exact absurd hr.1 h1
  · have hvrev : NodupVals ((er_ctp2 M).foldl (fun acc cp => dAddToSet acc cp.2 cp.1) []) :=
      nodupVals_groupfold _ (by intro e he; cases he)
    have hvR2 : NodupVals (er_revised M) := by
      unfold er_revised
      exact nodupVals_dAddToSet hvrev _ _
    have hvntn : vnt.Nodup := hvR2 ("NamedThing", vnt) (dget_mem hvnt)
    have hu : ((sunion vnt vbe).filter (fun y => y ≠ "BiologicalEntity")).Nodup :=
      (sunion_nodup hvntn).filter _
    exact nodupVals_ddel (nodupVals_dset hvR2 hu _) _

/-- **C4.** In the revised map produced by the subtree relocation
(`load_category_er_tree_data` lines 121-134 followed by the er lift of
`generate_major_branches_maps` lines 152-157), on any input satisfying the
HierarchyMap invariants in which "BiologicalEntity" is a child of
"NamedThing" and the placeholder name is fresh, the placeholder
"GeneticOrMolecularBiologicalEntity" is a direct child of "NamedThing" (the
dissolved branch's parent), "BiologicalEntity" is no longer present as a
key, and "BiologicalEntity" no longer appears in any node's children set. -/
theorem tree_surgeon_dissolves_branch {m0 : PyDict}
    (hk : NodupKeys m0.entries) (hop : OneParent m0.entries)
    (hv : NodupVals m0.entries) (hdef : m0.isDefault = true)
    (hBEp : "BiologicalEntity" ∈ dgetD m0.entries "NamedThing")
    (hfresh : ∀ e ∈ m0.entries, "GeneticOrMolecularBiologicalEntity" ∉ e.2) :
    ∃ F : Dict, tree_surgeon m0 = .ok ⟨F, true⟩
      ∧ "GeneticOrMolecularBiologicalEntity" ∈ dgetD F "NamedThing"
      ∧ dget F "BiologicalEntity" = none
      ∧ (∀ e ∈ F, "BiologicalEntity" ∉ e.2) := by
  obtain ⟨F, hF, h1, h2, h3, _, _, _⟩ := surgeon_core hk hop hv hBEp hfresh
  refine ⟨F, ?_, h3, h1, h2⟩
  unfold tree_surgeon
  rw [load_category_er_map_ok hdef]
  exact hF

theorem tree_surgeon_dissolves_branch_witness :
    ∃ F : Dict,
      tree_surgeon ⟨[("NamedThing", ["BiologicalEntity", "Other"]),
        ("BiologicalEntity", ["OrganismalEntity", "Gene"])], true⟩ = .ok ⟨F, true⟩
      ∧ "GeneticOrMolecularBiologicalEntity" ∈ dgetD F "NamedThing"
      ∧ dget F "BiologicalEntity" = none
      ∧ (∀ e ∈ F, "BiologicalEntity" ∉ e.2) :=
  tree_surgeon_dissolves_branch (by decide) (by decide) (by decide) rfl
    (by decide) (by decide)

/-- **C5.** TreeSurgeon partition law: on any input satisfying the
HierarchyMap invariants in which "BiologicalEntity" is a child of
"NamedThing" and the placeholder is fresh, every direct child of the
dissolved branch that is in the retain set `sub_branches_to_keep` becomes a
direct child of "NamedThing" (the former parent), every other direct child
becomes a direct child of the placeholder, no such child appears under any
other parent, and no children set of the result holds duplicates. -/
theorem tree_surgeon_partition {m0 : PyDict}
    (hk : NodupKeys m0.entries) (hop : OneParent m0.entries)
    (hv : NodupVals m0.entries) (hdef : m0.isDefault = true)
    (hBEp : "BiologicalEntity" ∈ dgetD m0.entries "NamedThing")
    (hfresh : ∀ e ∈ m0.entries, "GeneticOrMolecularBiologicalEntity" ∉ e.2) :
    ∃ F : Dict, tree_surgeon m0 = .ok ⟨F, true⟩
      ∧ (∀ x ∈ dgetD m0.entries "BiologicalEntity",
          x ∈ dgetD F (if x ∈ sub_branches_to_keep then "NamedThing"
            else "GeneticOrMolecularBiologicalEntity"))
      ∧ (∀ x ∈ dgetD m0.entries "BiologicalEntity", ∀ e ∈ F, x ∈ e.2 →
          e.1 = if x ∈ sub_branches_to_keep then "NamedThing"
            else "GeneticOrMolecularBiologicalEntity")
      ∧ (∀ e ∈ F, (e.2 : List String).Nodup) := by
  obtain ⟨F, hF, _, _, _, h4, h5, h6⟩ := surgeon_core hk hop hv hBEp hfresh
  refine ⟨F, ?_, h4, h5, h6⟩
  unfold tree_surgeon
  rw [load_category_er_map_ok hdef]
  exact hF

theorem tree_surgeon_partition_witness :
    ∃ F : Dict,
      tree_surgeon ⟨[("NamedThing", ["BiologicalEntity", "Other"]),
        ("BiologicalEntity", ["OrganismalEntity", "Gene"])], true⟩ = .ok ⟨F, true⟩
      ∧ (∀ x ∈ dgetD [("NamedThing", ["BiologicalEntity", "Other"]),
            ("BiologicalEntity", ["OrganismalEntity", "Gene"])] "BiologicalEntity",
          x ∈ dgetD F (if x ∈ sub_branches_to_keep then "NamedThing"
            else "GeneticOrMolecularBiologicalEntity"))
      ∧ (∀ x ∈ dgetD [("NamedThing", ["BiologicalEntity", "Other"]),
            ("BiologicalEntity", ["OrganismalEntity", "Gene"])] "BiologicalEntity",
          ∀ e ∈ F, x ∈ e.2 →
          e.1 = if x ∈ sub_branches_to_keep then "NamedThing"
            else "GeneticOrMolecularBiologicalEntity")
      ∧ (∀ e ∈ F, (e.2 : List String).Nodup) :=
  tree_surgeon_partition (by decide) (by decide) (by decide) rfl
    (by decide) (by decide)
